import Mathlib

/-!
# A separate-chaining hash table (`hash_table.h`)

Shallow embedding of the class template `HashTable<KeyType, ValueType, Func>`.

* A chain (`Node*` followed through `next_`) is a `List (Node K V)`; `nullptr` is `[]`.
* The slot array `table_` is a `List` of chains.  It is kept apart from the field
  `capacity_`, as in the source, so that a read of `table_[i]` outside the allocated
  array is visible as a failure.
* `size_t` values are natural numbers (`%` is the machine `%`; a modulus of zero is a
  failure).  The increment `++size_` and the doubling `capacity_ * 2` are taken without
  wrap-around; the decrement `--size_` wraps at zero as on the machine.
* The loop counter of `rehash` is an `int` compared with a `size_t`.  After the iteration
  with `i == INT_MAX` the increment `++i` overflows; the model takes the two's-complement
  value an unoptimised build computes, `-2^31`, which as a `size_t` is above every capacity
  that can be allocated, so the loop ends there: the old slots from `2^31` on are not
  visited.
* A `double` is the rational it stands for.  `load_factor_` holds such a rational, and the
  growth test `static_cast<double>(size_) / capacity_ > load_factor_` compares the
  quotient rounded to the nearest double (`roundDouble`) with it.  `size_` and `capacity_`
  below `2^53` convert to `double` exactly and the model converts them so; NaN and the
  infinities are outside the model.
* Undefined behaviour and thrown exceptions are values of `Failure`, returned through
  `Except`.
-/

namespace HashTableModel

/-- The ways an operation of the source can go wrong: the two exceptions thrown by
`operator[]`, and the three kinds of undefined behaviour the code could run into. -/
inductive Failure where
  /-- The exception `std::out_of_range("Hashcode is out of range")`. -/
  | out_of_range
  /-- The exception `std::runtime_error("Record with given hashcode is empty")`. -/
  | runtime_error
  /-- The value `hasher_(key) % capacity_` with `capacity_ == 0`. -/
  | divByZero
  /-- A read or write of `table_[i]` beyond the allocated array. -/
  | outOfBounds
  /-- The access `prev->next_` with `prev == nullptr`. -/
  | nullDeref
  deriving DecidableEq, Repr

/-- The struct `Node`: the fields `key_` and `value_`; the link `next_` is the tail of
the list the node stands in. -/
structure Node (K V : Type) where
  key_ : K
  value_ : V
  deriving DecidableEq, Repr

/-- A chain of nodes, head first. -/
abbrev Chain (K V : Type) := List (Node K V)

/-- The data members of `HashTable`. -/
structure HashTable (K V : Type) where
  table_ : List (Chain K V)
  hasher_ : K → Nat
  load_factor_ : ℚ
  size_ : Nat
  capacity_ : Nat

variable {K V : Type}

/-- The constructor `HashTable(size_t capacity, double load_factor, Func hasher)`. -/
def HashTable.init (capacity : Nat) (load_factor : ℚ) (hasher : K → Nat) : HashTable K V :=
  { table_ := List.replicate capacity []
    hasher_ := hasher
    load_factor_ := if 0 < load_factor ∧ load_factor ≤ 1 then load_factor else 1 / 2
    size_ := 0
    capacity_ := capacity }

/-- The constructor `HashTable(Func hasher)` (and `HashTable()` with the default
hasher): capacity 100, load factor 0.5. -/
def HashTable.initDefault (hasher : K → Nat) : HashTable K V :=
  { table_ := List.replicate 100 []
    hasher_ := hasher
    load_factor_ := 1 / 2
    size_ := 0
    capacity_ := 100 }

/-- The loop `while (cur_node != nullptr && cur_node->key_ != key)`, started at the head
of a chain: the nodes that were stepped over (the last of them is `prev`) and the rest of
the chain from `cur_node` on (`[]` when `cur_node == nullptr`). -/
def scan [DecidableEq K] (key : K) : Chain K V → Chain K V × Chain K V
  | [] => ([], [])
  | n :: rest =>
    if n.key_ ≠ key then (n :: (scan key rest).1, (scan key rest).2) else ([], n :: rest)

/-- The value `hasher_(key) % capacity_`. -/
def HashTable.slot (t : HashTable K V) (key : K) : Except Failure Nat :=
  if t.capacity_ = 0 then .error .divByZero else .ok (t.hasher_ key % t.capacity_)

/-- The loop of `insertNode`, `while (cur_node != nullptr) { prev = cur_node; ... }`:
the final value of `prev`. -/
def walk : Option (Node K V) → Chain K V → Option (Node K V)
  | prev, [] => prev
  | _, n :: rest => walk (some n) rest

/-- The method `insertNode`: link a detached node at the tail of its slot's chain. -/
def HashTable.insertNode (t : HashTable K V) (node : Node K V) :
    Except Failure (HashTable K V) :=
  match t.slot node.key_ with
  | .error e => .error e
  | .ok hash =>
    match t.table_[hash]? with
    | none => .error .outOfBounds
    | some [] => .ok { t with table_ := t.table_.set hash [node] }
    | some (c :: cs) =>
      match walk none (c :: cs) with
      | none => .error .nullDeref
      | some _ => .ok { t with table_ := t.table_.set hash ((c :: cs) ++ [node]) }

/-- The inner loop of `rehash`: every node of one old chain, head to tail, goes through
`insertNode`. -/
def HashTable.rehashChain (t : HashTable K V) : Chain K V → Except Failure (HashTable K V)
  | [] => .ok t
  | n :: rest =>
    match t.insertNode n with
    | .error e => .error e
    | .ok t1 => t1.rehashChain rest

/-- The outer loop of `rehash`, over the values of `i` still to come. -/
def HashTable.rehashSlots (prev_table : List (Chain K V)) (t : HashTable K V) :
    List Nat → Except Failure (HashTable K V)
  | [] => .ok t
  | i :: is =>
    match prev_table[i]? with
    | none => .error .outOfBounds
    | some chain =>
      match t.rehashChain chain with
      | .error e => .error e
      | .ok t1 => HashTable.rehashSlots prev_table t1 is

/-- The constant `INT_MAX` of a 32-bit `int`. -/
def INT_MAX : Nat := 2147483647

/-- The method `rehash`.  The loop `for (int i = 0; i < prev_capacity; ++i)` visits the old
slots `0, 1, ...` up to `prev_capacity - 1`, but none beyond slot `INT_MAX`: there `++i`
overflows and the comparison, made in `size_t`, ends the loop. -/
def HashTable.rehash (t : HashTable K V) (new_capacity : Nat) :
    Except Failure (HashTable K V) :=
  HashTable.rehashSlots t.table_
    { t with table_ := List.replicate new_capacity [], capacity_ := new_capacity }
    (List.range (min t.capacity_ (INT_MAX + 1)))

/-- Rounding to the nearest integer, ties to the even one. -/
def roundHalfEven (y : ℚ) : ℤ :=
  if y - ⌊y⌋ < 1 / 2 then ⌊y⌋
  else if 1 / 2 < y - ⌊y⌋ then ⌊y⌋ + 1
  else if ⌊y⌋ % 2 = 0 then ⌊y⌋ else ⌊y⌋ + 1

/-- The `double` nearest to a rational `x ≥ 0` (IEEE 754 binary64, round to nearest, ties
to even): with `2^e ≤ x < 2^(e+1)` the result is the multiple of `2^(e-52)` nearest to `x`.
Every quotient of two `size_t` values lies in the normal range, where this is the rounding
of the machine division. -/
def roundDouble (x : ℚ) : ℚ :=
  if x ≤ 0 then 0
  else (roundHalfEven (x / 2 ^ (Int.log 2 x - 52)) : ℚ) * 2 ^ (Int.log 2 x - 52)

/-- Lines 71 to 73 of `insert`: the growth test that ends every call.  The quotient is
computed in `double`. -/
def HashTable.growIfNeeded (t : HashTable K V) : Except Failure (HashTable K V) :=
  if roundDouble ((t.size_ : ℚ) / (t.capacity_ : ℚ)) > t.load_factor_ then
    t.rehash (t.capacity_ * 2)
  else .ok t

/-- The method `insert`. -/
def HashTable.insert [DecidableEq K] (t : HashTable K V) (key : K) (value : V) :
    Except Failure (HashTable K V) :=
  match t.slot key with
  | .error e => .error e
  | .ok hash =>
    match t.table_[hash]? with
    | none => .error .outOfBounds
    | some [] =>
      HashTable.growIfNeeded
        { t with table_ := t.table_.set hash [⟨key, value⟩], size_ := t.size_ + 1 }
    | some (c :: cs) =>
      match scan key (c :: cs) with
      | (passed, []) =>
        match passed.getLast? with
        | none => .error .nullDeref
        | some _ =>
          HashTable.growIfNeeded
            { t with table_ := t.table_.set hash (passed ++ [⟨key, value⟩]),
                     size_ := t.size_ + 1 }
      | (passed, cur :: rest) =>
        HashTable.growIfNeeded
          { t with table_ := t.table_.set hash (passed ++ ⟨cur.key_, value⟩ :: rest) }

/-- The method `findNode`: the node found, or `none` for `nullptr`. -/
def HashTable.findNode [DecidableEq K] (t : HashTable K V) (key : K) :
    Except Failure (Option (Node K V)) :=
  match t.slot key with
  | .error e => .error e
  | .ok hash =>
    match t.table_[hash]? with
    | none => .error .outOfBounds
    | some chain => .ok (scan key chain).2.head?

/-- The method `find`: the value pointed to, or `none` for `nullptr`.  It only reads the
table, so it has no successor state. -/
def HashTable.find [DecidableEq K] (t : HashTable K V) (key : K) :
    Except Failure (Option V) :=
  match t.findNode key with
  | .error e => .error e
  | .ok none => .ok none
  | .ok (some node) => .ok (some node.value_)

/-- The statement `--size_` on a `size_t`: at zero it wraps to `2^64 - 1`. -/
def decr (n : Nat) : Nat := if n = 0 then 2 ^ 64 - 1 else n - 1

/-- The method `erase`. -/
def HashTable.erase [DecidableEq K] (t : HashTable K V) (key : K) :
    Except Failure (HashTable K V) :=
  match t.slot key with
  | .error e => .error e
  | .ok hash =>
    match t.table_[hash]? with
    | none => .error .outOfBounds
    | some chain =>
      match scan key chain with
      | (_, []) => .ok t
      | (passed, _ :: rest) =>
        .ok { t with table_ := t.table_.set hash (passed ++ rest), size_ := decr t.size_ }

/-- The method `operator[]`. -/
def HashTable.subscript (t : HashTable K V) (index : Nat) : Except Failure (Node K V) :=
  if index ≥ t.capacity_ then .error .out_of_range
  else
    match t.table_[index]? with
    | none => .error .outOfBounds
    | some [] => .error .runtime_error
    | some (n :: _) => .ok n

/-- The method `at`: a copy of what `operator[]` refers to. -/
def HashTable.at_ (t : HashTable K V) (index : Nat) : Except Failure (Node K V) :=
  t.subscript index

/-- The method `size`. -/
def HashTable.size (t : HashTable K V) : Nat := t.size_

/-- The method `capacity`. -/
def HashTable.capacity (t : HashTable K V) : Nat := t.capacity_

/-- A mutating call of the public interface. -/
inductive Op (K V : Type) where
  | insert (key : K) (value : V)
  | erase (key : K)

/-- The key a call is about. -/
def Op.key : Op K V → K
  | .insert k _ => k
  | .erase k => k

/-- One call. -/
def HashTable.step [DecidableEq K] (t : HashTable K V) : Op K V → Except Failure (HashTable K V)
  | .insert k v => t.insert k v
  | .erase k => t.erase k

/-- A sequence of calls, first to last; it stops at the first failure. -/
def HashTable.run [DecidableEq K] (t : HashTable K V) : List (Op K V) → Except Failure (HashTable K V)
  | [] => .ok t
  | o :: os =>
    match t.step o with
    | .error e => .error e
    | .ok t1 => t1.run os

/-! ## Closed forms

The definitions of this part are not code of the source.  They say in one expression what a
method leaves behind; `insert_eq`, `erase_eq`, `rehash_eq` and `find_eq` below prove that
the methods, as embedded above, compute exactly these. -/

/-- The value stored under `k` in a chain: that of the first node whose key is `k`. -/
def lookup [DecidableEq K] (k : K) (c : Chain K V) : Option V :=
  (c.find? (fun n => decide (n.key_ = k))).map Node.value_

/-- The chain of the slot a key hashes to (empty when the slot does not exist). -/
def HashTable.chainOf (t : HashTable K V) (k : K) : Chain K V :=
  (t.table_[t.hasher_ k % t.capacity_]?).getD []

/-- Store `v` under `k` in a chain: overwrite the first node with key `k`, or link a new
node at the tail. -/
def put [DecidableEq K] (k : K) (v : V) : Chain K V → Chain K V
  | [] => [⟨k, v⟩]
  | n :: rest => if n.key_ = k then ⟨n.key_, v⟩ :: rest else n :: put k v rest

/-- The table `insert` has built when it reaches its growth test (after line 70), in
closed form. -/
def HashTable.stored [DecidableEq K] (t : HashTable K V) (k : K) (v : V) : HashTable K V :=
  { t with
    table_ := t.table_.set (t.hasher_ k % t.capacity_) (put k v (t.chainOf k))
    size_ := if k ∈ (t.chainOf k).map Node.key_ then t.size_ else t.size_ + 1 }

/-- The table `erase` leaves, in closed form. -/
def HashTable.erased [DecidableEq K] (t : HashTable K V) (k : K) : HashTable K V :=
  if k ∈ (t.chainOf k).map Node.key_ then
    { t with
      table_ := t.table_.set (t.hasher_ k % t.capacity_)
        ((t.chainOf k).eraseP (fun n => decide (n.key_ = k)))
      size_ := decr t.size_ }
  else t

/-- The slot array that holds, in slot `j`, the nodes of `es` whose key hashes to `j`
modulo `n`, in the order of `es`. -/
def bucketize (h : K → Nat) (n : Nat) (es : Chain K V) : List (Chain K V) :=
  (List.range n).map (fun j => es.filter (fun e => decide (h e.key_ % n = j)))

/-- The table the growth test of `insert` leaves, in closed form: when the table grows,
the nodes of the old slots up to `INT_MAX` are distributed over the new slots. -/
def HashTable.grown (t : HashTable K V) : HashTable K V :=
  if roundDouble ((t.size_ : ℚ) / (t.capacity_ : ℚ)) > t.load_factor_ then
    { t with
      table_ := bucketize t.hasher_ (t.capacity_ * 2) (t.table_.take (INT_MAX + 1)).flatten
      capacity_ := t.capacity_ * 2 }
  else t

/-- The representation invariant of a table with at least one slot.  `size_` counts at
least the nodes that are in the table. -/
structure HashTable.Inv (t : HashTable K V) : Prop where
  length_eq : t.table_.length = t.capacity_
  cap_pos : 1 ≤ t.capacity_
  placed : ∀ i chain, t.table_[i]? = some chain →
    ∀ n ∈ chain, t.hasher_ n.key_ % t.capacity_ = i
  size_le : (t.table_.map List.length).sum ≤ t.size_
  nodup : ∀ chain ∈ t.table_, (chain.map Node.key_).Nodup

/-- The tables a program can hold: those reached from the constructor, called with a
capacity of at least 1, by a sequence of `insert` and `erase` calls.  The load factor the
constructor stores is a `double`, as the type of its parameter says.  The two constructors
without a capacity argument build what the third builds from capacity 100 and load factor
1/2 (`initDefault_eq_init`). -/
def HashTable.Reachable [DecidableEq K] (t : HashTable K V) : Prop :=
  ∃ (c : Nat) (lf : ℚ) (h : K → Nat) (ops : List (Op K V)),
    1 ≤ c ∧
    roundDouble (HashTable.init c lf h : HashTable K V).load_factor_ =
      (HashTable.init c lf h : HashTable K V).load_factor_ ∧
    (HashTable.init c lf h).run ops = .ok t

/-! ## Example tables -/

/-- Capacity 4, load factor 1/2, the identity as hasher, holding 1 ↦ 1 and 2 ↦ 2. -/
def twoKeys : HashTable Nat Nat := ⟨[[], [⟨1, 1⟩], [⟨2, 2⟩], []], id, 1 / 2, 2, 4⟩

/-- Capacity 2, load factor 1/4, the identity as hasher, holding 0 ↦ 0: what one `insert`
leaves of the table constructed with capacity 1 and load factor 1/4. -/
def overloaded : HashTable Nat Nat := ⟨[[⟨0, 0⟩], []], id, 1 / 4, 1, 2⟩

/-- Capacity 4, load factor 1/8, the identity as hasher, holding 3 ↦ 7: what one `insert`
leaves of the table constructed with capacity 2 and load factor 1/8. -/
def overloaded8 : HashTable Nat Nat := ⟨[[], [], [], [⟨3, 7⟩]], id, 1 / 8, 1, 4⟩

/-- Capacity 4, load factor 1, the identity as hasher, slot 1 holding 1 ↦ 10, 5 ↦ 50
and 9 ↦ 90 in that order. -/
def oneChain : HashTable Nat Nat :=
  ⟨[[], [⟨1, 10⟩, ⟨5, 50⟩, ⟨9, 90⟩], [], []], id, 1, 3, 4⟩

/-- Capacity `2^31 + 8`, load factor `2^-40`, the identity as hasher, holding
2147483653 ↦ 7 in slot 2147483653: the table `insert(2147483653, 7)` has built from the
empty table of that capacity when its growth test calls `rehash`. -/
def bigTable : HashTable Nat Nat :=
  { table_ := (List.replicate 2147483656 []).set 2147483653 [⟨2147483653, 7⟩]
    hasher_ := id
    load_factor_ := 1 / 2 ^ 40
    size_ := 1
    capacity_ := 2147483656 }

/-- The `double` nearest to 3/10, the value of the literal `0.3`. -/
def threeTenths : ℚ := 5404319552844595 / 2 ^ 54

/-! ## The reference map -/

/-- The reference association map: a list of key-value pairs in which no key occurs
twice. -/
abbrev RefMap (K V : Type) := AList (fun _ : K => V)

/-- One call on the reference map: `insert` sets the value of the key, `erase` deletes
the key. -/
def refStep [DecidableEq K] (m : RefMap K V) : Op K V → RefMap K V
  | .insert k v => m.insert k v
  | .erase k => m.erase k

/-- A sequence of calls on the reference map, first to last. -/
def refRun [DecidableEq K] (m : RefMap K V) : List (Op K V) → RefMap K V
  | [] => m
  | o :: os => refRun (refStep m o) os

/-! ## Rounding to `double` -/

section RoundLemmas

theorem floor_le_roundHalfEven (y : ℚ) : ⌊y⌋ ≤ roundHalfEven y := by
  unfold roundHalfEven
  split
  · exact le_refl _
  · split
    · omega
    · split <;> omega

theorem roundHalfEven_le_floor_add_one (y : ℚ) : roundHalfEven y ≤ ⌊y⌋ + 1 := by
  unfold roundHalfEven
  split
  · omega
  · split
    · omega
    · split <;> omega

theorem roundHalfEven_intCast (n : ℤ) : roundHalfEven (n : ℚ) = n := by
  unfold roundHalfEven
  simp

theorem roundHalfEven_mono {y z : ℚ} (h : y ≤ z) : roundHalfEven y ≤ roundHalfEven z := by
  have hf : ⌊y⌋ ≤ ⌊z⌋ := Int.floor_mono h
  rcases lt_or_eq_of_le hf with hlt | heq
  · calc roundHalfEven y ≤ ⌊y⌋ + 1 := roundHalfEven_le_floor_add_one y
      _ ≤ ⌊z⌋ := hlt
      _ ≤ roundHalfEven z := floor_le_roundHalfEven z
  · unfold roundHalfEven
    rw [heq]
    have hyz : y - ⌊z⌋ ≤ z - ⌊z⌋ := by linarith
    split_ifs <;> first | omega | linarith

theorem roundHalfEven_of_floor (y : ℚ) (n : ℤ) (h1 : (n : ℚ) ≤ y) (h2 : y < n + 1 / 2) :
    roundHalfEven y = n := by
  have hf : ⌊y⌋ = n := by
    rw [Int.floor_eq_iff]
    exact ⟨h1, by linarith⟩
  unfold roundHalfEven
  rw [hf, if_pos (by linarith)]

theorem log_bounds (x : ℚ) (hx : 0 < x) :
    (2 : ℚ) ^ Int.log 2 x ≤ x ∧ x < (2 : ℚ) ^ (Int.log 2 x + 1) := by
  have h1 := Int.zpow_log_le_self (b := 2) (r := x) (by decide) hx
  have h2 := Int.lt_zpow_succ_log_self (b := 2) (by decide) x
  exact ⟨by exact_mod_cast h1, by exact_mod_cast h2⟩

theorem log_eq_of_bounds (x : ℚ) (e : ℤ) (h1 : (2 : ℚ) ^ e ≤ x) (h2 : x < (2 : ℚ) ^ (e + 1)) :
    Int.log 2 x = e := by
  have hx : 0 < x := lt_of_lt_of_le (by positivity) h1
  apply le_antisymm
  · have := (Int.lt_zpow_iff_log_lt (b := 2) (by decide) hx (x := e + 1)).mp (by exact_mod_cast h2)
    omega
  · exact (Int.zpow_le_iff_le_log (b := 2) (by decide) hx).mp (by exact_mod_cast h1)

theorem scaled_bounds (x : ℚ) (hx : 0 < x) :
    (2 : ℚ) ^ (52 : ℕ) ≤ x / 2 ^ (Int.log 2 x - 52) ∧
      x / 2 ^ (Int.log 2 x - 52) < (2 : ℚ) ^ (53 : ℕ) := by
  obtain ⟨h1, h2⟩ := log_bounds x hx
  have hu : (0 : ℚ) < 2 ^ (Int.log 2 x - 52) := by positivity
  constructor
  · rw [le_div_iff₀ hu, ← zpow_natCast, ← zpow_add₀ (by norm_num)]
    simpa using h1
  · rw [div_lt_iff₀ hu, ← zpow_natCast, ← zpow_add₀ (by norm_num)]
    have : ((53 : ℕ) : ℤ) + (Int.log 2 x - 52) = Int.log 2 x + 1 := by push_cast; ring
    rw [this]
    exact h2

theorem roundDouble_nonneg (x : ℚ) : 0 ≤ roundDouble x := by
  unfold roundDouble
  split
  · exact le_refl _
  · rename_i hx
    have hx : 0 < x := not_le.mp hx
    have h := (scaled_bounds x hx).1
    have h2 : (0 : ℤ) ≤ roundHalfEven (x / 2 ^ (Int.log 2 x - 52)) := by
      have : (0 : ℤ) ≤ ⌊x / 2 ^ (Int.log 2 x - 52)⌋ := by
        rw [Int.floor_nonneg]
        exact le_trans (by positivity) h
      exact le_trans this (floor_le_roundHalfEven _)
    have h3 : (0 : ℚ) ≤ (roundHalfEven (x / 2 ^ (Int.log 2 x - 52)) : ℚ) := by exact_mod_cast h2
    exact mul_nonneg h3 (by positivity)

theorem roundDouble_lower (x : ℚ) (hx : 0 < x) : (2 : ℚ) ^ Int.log 2 x ≤ roundDouble x := by
  unfold roundDouble
  rw [if_neg (not_le.mpr hx)]
  have h := (scaled_bounds x hx).1
  have h2 : ((2 ^ 52 : ℤ)) ≤ roundHalfEven (x / 2 ^ (Int.log 2 x - 52)) := by
    have := roundHalfEven_mono h
    have h0 : roundHalfEven ((2 : ℚ) ^ (52 : ℕ)) = 2 ^ 52 := by
      have := roundHalfEven_intCast (2 ^ 52)
      simpa using this
    rw [h0] at this
    exact this
  have h3 : ((2 : ℚ) ^ (52 : ℕ)) ≤ (roundHalfEven (x / 2 ^ (Int.log 2 x - 52)) : ℚ) := by
    exact_mod_cast h2
  have hu : (0 : ℚ) < 2 ^ (Int.log 2 x - 52) := by positivity
  calc (2 : ℚ) ^ Int.log 2 x = (2 : ℚ) ^ (52 : ℕ) * 2 ^ (Int.log 2 x - 52) := by
        rw [← zpow_natCast, ← zpow_add₀ (by norm_num)]
        congr 1
        push_cast; ring
    _ ≤ _ := mul_le_mul_of_nonneg_right h3 (le_of_lt hu)

theorem roundDouble_upper (x : ℚ) (hx : 0 < x) : roundDouble x ≤ (2 : ℚ) ^ (Int.log 2 x + 1) := by
  unfold roundDouble
  rw [if_neg (not_le.mpr hx)]
  have h := (scaled_bounds x hx).2
  have h2 : roundHalfEven (x / 2 ^ (Int.log 2 x - 52)) ≤ ((2 ^ 53 : ℤ)) := by
    have := roundHalfEven_mono (le_of_lt h)
    have h0 : roundHalfEven ((2 : ℚ) ^ (53 : ℕ)) = 2 ^ 53 := by
      have := roundHalfEven_intCast (2 ^ 53)
      simpa using this
    rw [h0] at this
    exact this
  have h3 : (roundHalfEven (x / 2 ^ (Int.log 2 x - 52)) : ℚ) ≤ ((2 : ℚ) ^ (53 : ℕ)) := by
    exact_mod_cast h2
  have hu : (0 : ℚ) < 2 ^ (Int.log 2 x - 52) := by positivity
  calc _ ≤ (2 : ℚ) ^ (53 : ℕ) * 2 ^ (Int.log 2 x - 52) :=
        mul_le_mul_of_nonneg_right h3 (le_of_lt hu)
    _ = (2 : ℚ) ^ (Int.log 2 x + 1) := by
        rw [← zpow_natCast, ← zpow_add₀ (by norm_num)]
        congr 1
        push_cast; ring

theorem roundDouble_mono {x z : ℚ} (h : x ≤ z) : roundDouble x ≤ roundDouble z := by
  by_cases hx : x ≤ 0
  · have : roundDouble x = 0 := by unfold roundDouble; rw [if_pos hx]
    rw [this]
    exact roundDouble_nonneg z
  · have hx : 0 < x := not_le.mp hx
    have hz : 0 < z := lt_of_lt_of_le hx h
    have hl : Int.log 2 x ≤ Int.log 2 z := Int.log_mono_right hx h
    rcases lt_or_eq_of_le hl with hlt | heq
    · calc roundDouble x ≤ (2 : ℚ) ^ (Int.log 2 x + 1) := roundDouble_upper x hx
        _ ≤ (2 : ℚ) ^ Int.log 2 z := zpow_le_zpow_right₀ (by norm_num) (by omega)
        _ ≤ roundDouble z := roundDouble_lower z hz
    · unfold roundDouble
      rw [if_neg (not_le.mpr hx), if_neg (not_le.mpr hz), heq]
      have hu : (0 : ℚ) < 2 ^ (Int.log 2 z - 52) := by positivity
      apply mul_le_mul_of_nonneg_right _ (le_of_lt hu)
      have : x / 2 ^ (Int.log 2 z - 52) ≤ z / 2 ^ (Int.log 2 z - 52) :=
        div_le_div_of_nonneg_right h (le_of_lt hu)
      exact_mod_cast roundHalfEven_mono this

theorem roundDouble_eq_of_floor (x : ℚ) (e n : ℤ) (h1 : (2 : ℚ) ^ e ≤ x)
    (h2 : x < (2 : ℚ) ^ (e + 1)) (h3 : (n : ℚ) ≤ x / 2 ^ (e - 52))
    (h4 : x / 2 ^ (e - 52) < n + 1 / 2) : roundDouble x = n * 2 ^ (e - 52) := by
  have hx : 0 < x := lt_of_lt_of_le (by positivity) h1
  unfold roundDouble
  rw [if_neg (not_le.mpr hx), log_eq_of_bounds x e h1 h2, roundHalfEven_of_floor _ n h3 h4]

theorem roundDouble_normal (m : ℕ) (k : ℤ) (h1 : 2 ^ 52 ≤ m) (h2 : m < 2 ^ 53) :
    roundDouble ((m : ℚ) * 2 ^ k) = (m : ℚ) * 2 ^ k := by
  have hm1 : ((2 : ℚ) ^ (52 : ℕ)) ≤ (m : ℚ) := by exact_mod_cast h1
  have hm2 : (m : ℚ) < ((2 : ℚ) ^ (53 : ℕ)) := by exact_mod_cast h2
  have hk : (0 : ℚ) < 2 ^ k := by positivity
  have := roundDouble_eq_of_floor ((m : ℚ) * 2 ^ k) (k + 52) (m : ℤ) ?_ ?_ ?_ ?_
  · rw [this]
    have : k + 52 - 52 = k := by ring
    rw [this]
    push_cast
    rfl
  · rw [zpow_add₀ (by norm_num), mul_comm]
    exact mul_le_mul_of_nonneg_right (by exact_mod_cast hm1) (le_of_lt hk)
  · have : k + 52 + 1 = k + 53 := by ring
    rw [this, zpow_add₀ (by norm_num), mul_comm ((2:ℚ) ^ k)]
    exact mul_lt_mul_of_pos_right (by exact_mod_cast hm2) hk
  · have : k + 52 - 52 = k := by ring
    rw [this, mul_div_assoc, div_self (ne_of_gt hk)]
    simp
  · have : k + 52 - 52 = k := by ring
    rw [this, mul_div_assoc, div_self (ne_of_gt hk)]
    simp

theorem roundDouble_two_zpow (k : ℤ) : roundDouble ((2 : ℚ) ^ k) = (2 : ℚ) ^ k := by
  have h := roundDouble_normal (2 ^ 52) (k - 52) (le_refl _) (by norm_num)
  have e : ((2 ^ 52 : ℕ) : ℚ) * 2 ^ (k - 52) = (2 : ℚ) ^ k := by
    rw [zpow_sub₀ (by norm_num)]
    field_simp
    ring
  rw [e] at h
  exact h

theorem roundDouble_one : roundDouble 1 = 1 := by
  have h := roundDouble_two_zpow 0
  simpa using h

theorem roundDouble_half : roundDouble (1 / 2) = 1 / 2 := by
  have h := roundDouble_two_zpow (-1)
  norm_num at h
  exact h

theorem roundDouble_quarter : roundDouble (1 / 4) = 1 / 4 := by
  have h := roundDouble_two_zpow (-2)
  norm_num at h
  exact h

theorem roundDouble_inv_two : roundDouble 2⁻¹ = 2⁻¹ := by
  have h := roundDouble_half
  rwa [one_div] at h

theorem roundDouble_inv_four : roundDouble 4⁻¹ = 4⁻¹ := by
  have h := roundDouble_quarter
  rwa [one_div] at h

theorem roundDouble_three_quarters : roundDouble (3 / 4) = 3 / 4 := by
  have h := roundDouble_normal (3 * 2 ^ 51) (-53) (by norm_num) (by norm_num)
  norm_num at h
  exact h

end RoundLemmas

/-! ## The scan loop -/

section ScanLemmas
variable [DecidableEq K]

theorem scan_append (k : K) (c : Chain K V) : (scan k c).1 ++ (scan k c).2 = c := by
  induction c with
  | nil => rfl
  | cons n rest ih =>
    by_cases h : n.key_ = k
    · simp [scan, h]
    · simp [scan, h, ih]

theorem scan_fst_ne (k : K) (c : Chain K V) : ∀ n ∈ (scan k c).1, n.key_ ≠ k := by
  induction c with
  | nil => simp [scan]
  | cons n rest ih =>
    by_cases h : n.key_ = k
    · simp [scan, h]
    · intro m hm
      simp only [scan, ne_eq, h, not_false_eq_true, if_true, List.mem_cons] at hm
      rcases hm with rfl | hm
      · exact h
      · exact ih m hm

theorem scan_snd_head (k : K) (c : Chain K V) :
    (scan k c).2.head? = c.find? (fun n => decide (n.key_ = k)) := by
  induction c with
  | nil => rfl
  | cons n rest ih =>
    by_cases h : n.key_ = k
    · simp [scan, h]
    · simp [scan, h, ih]

theorem scan_of_not_mem (k : K) (c : Chain K V) (h : k ∉ c.map Node.key_) :
    scan k c = (c, []) := by
  induction c with
  | nil => rfl
  | cons n rest ih =>
    simp only [List.map_cons, List.mem_cons, not_or] at h
    have hn : n.key_ ≠ k := fun e => h.1 e.symm
    simp [scan, hn, ih h.2]

theorem scan_snd_key (k : K) (c : Chain K V) (cur : Node K V) (rest : Chain K V)
    (h : (scan k c).2 = cur :: rest) : cur.key_ = k := by
  induction c with
  | nil => simp [scan] at h
  | cons n tl ih =>
    by_cases hn : n.key_ = k
    · simp [scan, hn] at h
      rw [← h.1]; exact hn
    · simp [scan, hn] at h
      exact ih h

theorem scan_snd_nil (k : K) (c : Chain K V) (h : (scan k c).2 = []) :
    k ∉ c.map Node.key_ := by
  have h1 := scan_append k c
  rw [h, List.append_nil] at h1
  intro hk
  rw [List.mem_map] at hk
  obtain ⟨n, hn, hnk⟩ := hk
  rw [← h1] at hn
  exact scan_fst_ne k c n hn hnk

end ScanLemmas

/-! ## The operations in closed form -/

section OpLemmas
variable [DecidableEq K]

theorem put_eq_scan (k : K) (v : V) (c : Chain K V) :
    put k v c =
      match scan k c with
      | (passed, []) => passed ++ [⟨k, v⟩]
      | (passed, cur :: rest) => passed ++ ⟨cur.key_, v⟩ :: rest := by
  induction c with
  | nil => rfl
  | cons n tl ih =>
    by_cases hn : n.key_ = k
    · simp [put, scan, hn]
    · simp only [put, scan, hn, if_false, ne_eq, not_false_eq_true, if_true]
      rw [ih]
      split <;> rename_i heq <;> simp [heq]

theorem eraseP_eq_scan (k : K) (c : Chain K V) :
    c.eraseP (fun n => decide (n.key_ = k)) = (scan k c).1 ++ (scan k c).2.tail := by
  induction c with
  | nil => rfl
  | cons n tl ih =>
    by_cases hn : n.key_ = k
    · simp [scan, hn, List.eraseP_cons]
    · simp [scan, hn, List.eraseP_cons, ih]

omit [DecidableEq K] in
theorem slot_eq (t : HashTable K V) (hcap : 1 ≤ t.capacity_) (k : K) :
    t.slot k = .ok (t.hasher_ k % t.capacity_) := by
  unfold HashTable.slot
  rw [if_neg (by omega)]

omit [DecidableEq K] in
theorem getElem?_chainOf (t : HashTable K V) (hlen : t.table_.length = t.capacity_)
    (hcap : 1 ≤ t.capacity_) (k : K) :
    t.table_[t.hasher_ k % t.capacity_]? = some (t.chainOf k) := by
  have hlt : t.hasher_ k % t.capacity_ < t.table_.length := by
    rw [hlen]; exact Nat.mod_lt _ hcap
  unfold HashTable.chainOf
  rw [List.getElem?_eq_getElem hlt]
  rfl

theorem findNode_eq (t : HashTable K V) (hlen : t.table_.length = t.capacity_)
    (hcap : 1 ≤ t.capacity_) (k : K) :
    t.findNode k = .ok ((t.chainOf k).find? (fun n => decide (n.key_ = k))) := by
  unfold HashTable.findNode
  rw [slot_eq t hcap]
  simp only [getElem?_chainOf t hlen hcap, scan_snd_head]

theorem find_eq (t : HashTable K V) (hlen : t.table_.length = t.capacity_)
    (hcap : 1 ≤ t.capacity_) (k : K) :
    t.find k = .ok (lookup k (t.chainOf k)) := by
  unfold HashTable.find
  rw [findNode_eq t hlen hcap]
  unfold lookup
  cases (t.chainOf k).find? (fun n => decide (n.key_ = k)) <;> rfl

theorem insert_eq (t : HashTable K V) (hlen : t.table_.length = t.capacity_)
    (hcap : 1 ≤ t.capacity_) (k : K) (v : V) :
    t.insert k v = (t.stored k v).growIfNeeded := by
  unfold HashTable.insert HashTable.stored
  rw [slot_eq t hcap]
  simp only [getElem?_chainOf t hlen hcap]
  cases hc : t.chainOf k with
  | nil => simp [put]
  | cons c cs =>
    have hput := put_eq_scan k v (c :: cs)
    cases hs : scan k (c :: cs) with
    | mk passed rest =>
      rw [hs] at hput
      cases rest with
      | nil =>
        have hnot : k ∉ (c :: cs).map Node.key_ := scan_snd_nil k (c :: cs) (by rw [hs])
        have hp : passed = c :: cs := by
          have := scan_of_not_mem k (c :: cs) hnot
          rw [hs] at this
          exact (Prod.mk.inj this).1
        subst hp
        simp only [hs, hput, if_neg hnot, List.getLast?_cons]
      | cons cur rest =>
        have hmem : k ∈ (c :: cs).map Node.key_ := by
          have hk := scan_snd_key k (c :: cs) cur rest (by rw [hs])
          have happ := scan_append k (c :: cs)
          rw [hs] at happ
          rw [← happ, ← hk]
          simp
        simp only [hs, hput, if_pos hmem]

theorem erase_eq (t : HashTable K V) (hlen : t.table_.length = t.capacity_)
    (hcap : 1 ≤ t.capacity_) (k : K) :
    t.erase k = .ok (t.erased k) := by
  unfold HashTable.erase HashTable.erased
  rw [slot_eq t hcap]
  simp only [getElem?_chainOf t hlen hcap]
  have he := eraseP_eq_scan k (t.chainOf k)
  cases hs : scan k (t.chainOf k) with
  | mk passed rest =>
    rw [hs] at he
    cases rest with
    | nil =>
      have hnot : k ∉ (t.chainOf k).map Node.key_ := scan_snd_nil k _ (by rw [hs])
      simp only [hs, if_neg hnot]
    | cons cur rest =>
      have hmem : k ∈ (t.chainOf k).map Node.key_ := by
        have hk := scan_snd_key k (t.chainOf k) cur rest (by rw [hs])
        have happ := scan_append k (t.chainOf k)
        rw [hs] at happ
        rw [← happ, ← hk]
        simp
      simp only [hs, if_pos hmem, he, List.tail_cons]

end OpLemmas

/-! ## Rehash in closed form -/

section RehashLemmas

theorem walk_some (p : Node K V) (c : Chain K V) : ∃ q, walk (some p) c = some q := by
  induction c generalizing p with
  | nil => exact ⟨p, rfl⟩
  | cons n rest ih => exact ih n

theorem insertNode_eq (t : HashTable K V) (hlen : t.table_.length = t.capacity_)
    (hcap : 1 ≤ t.capacity_) (e : Node K V) :
    t.insertNode e =
      .ok { t with
            table_ := t.table_.set (t.hasher_ e.key_ % t.capacity_) (t.chainOf e.key_ ++ [e]) } := by
  unfold HashTable.insertNode
  rw [slot_eq t hcap]
  simp only [getElem?_chainOf t hlen hcap]
  cases hc : t.chainOf e.key_ with
  | nil => rfl
  | cons c cs =>
    obtain ⟨q, hq⟩ := walk_some c cs
    simp only [walk, hq]

theorem length_bucketize (h : K → Nat) (n : Nat) (es : Chain K V) :
    (bucketize h n es).length = n := by
  simp [bucketize]

theorem getElem?_bucketize (h : K → Nat) (n : Nat) (es : Chain K V) (j : Nat) (hj : j < n) :
    (bucketize h n es)[j]? = some (es.filter (fun e => decide (h e.key_ % n = j))) := by
  simp [bucketize, List.getElem?_range hj]

theorem bucketize_nil (h : K → Nat) (n : Nat) :
    bucketize h n ([] : Chain K V) = List.replicate n [] := by
  apply List.ext_getElem?
  intro i
  by_cases hi : i < n
  · rw [getElem?_bucketize h n [] i hi, List.getElem?_replicate_of_lt hi]
    rfl
  · rw [List.getElem?_eq_none (by rw [length_bucketize]; omega),
      List.getElem?_eq_none (by rw [List.length_replicate]; omega)]

theorem bucketize_snoc (h : K → Nat) (n : Nat) (es : Chain K V) (e : Node K V) (_hn : 1 ≤ n) :
    bucketize h n (es ++ [e]) =
      (bucketize h n es).set (h e.key_ % n)
        (es.filter (fun x => decide (h x.key_ % n = h e.key_ % n)) ++ [e]) := by
  apply List.ext_getElem?
  intro i
  by_cases hi : i < n
  · rw [getElem?_bucketize h n _ i hi, List.getElem?_set]
    by_cases hij : h e.key_ % n = i
    · subst hij
      simp [length_bucketize, hi]
    · rw [if_neg hij, getElem?_bucketize h n _ i hi]
      simp [List.filter_append, hij]
  · rw [List.getElem?_eq_none (by rw [length_bucketize]; omega),
      List.getElem?_eq_none (by rw [List.length_set, length_bucketize]; omega)]

theorem rehashChain_eq (c : Chain K V) (t : HashTable K V) (es : Chain K V)
    (hcap : 1 ≤ t.capacity_) (ht : t.table_ = bucketize t.hasher_ t.capacity_ es) :
    t.rehashChain c =
      .ok { t with table_ := bucketize t.hasher_ t.capacity_ (es ++ c) } := by
  induction c generalizing t es with
  | nil =>
    simp only [HashTable.rehashChain, List.append_nil]
    rw [← ht]
  | cons e rest ih =>
    have hlen : t.table_.length = t.capacity_ := by rw [ht, length_bucketize]
    have hj : t.hasher_ e.key_ % t.capacity_ < t.capacity_ := Nat.mod_lt _ hcap
    have hch : t.chainOf e.key_ =
        es.filter (fun x => decide (t.hasher_ x.key_ % t.capacity_ = t.hasher_ e.key_ % t.capacity_)) := by
      unfold HashTable.chainOf
      rw [ht, getElem?_bucketize _ _ _ _ hj]
      rfl
    simp only [HashTable.rehashChain, insertNode_eq t hlen hcap e]
    have hstep : t.table_.set (t.hasher_ e.key_ % t.capacity_) (t.chainOf e.key_ ++ [e]) =
        bucketize t.hasher_ t.capacity_ (es ++ [e]) := by
      rw [hch, ht, bucketize_snoc _ _ _ _ hcap]
    rw [hstep]
    rw [ih { t with table_ := bucketize t.hasher_ t.capacity_ (es ++ [e]) } (es ++ [e]) hcap rfl]
    simp

theorem rehashSlots_eq (prev : List (Chain K V)) (is : List Nat) (t : HashTable K V)
    (es : Chain K V) (hcap : 1 ≤ t.capacity_)
    (ht : t.table_ = bucketize t.hasher_ t.capacity_ es)
    (his : ∀ i ∈ is, i < prev.length) :
    HashTable.rehashSlots prev t is =
      .ok { t with
            table_ := bucketize t.hasher_ t.capacity_
              (es ++ (is.map (fun i => (prev[i]?).getD [])).flatten) } := by
  induction is generalizing t es with
  | nil =>
    simp only [HashTable.rehashSlots, List.map_nil, List.flatten_nil, List.append_nil]
    rw [← ht]
  | cons i rest ih =>
    have hi : i < prev.length := his i (List.mem_cons_self _ _)
    simp only [HashTable.rehashSlots, List.getElem?_eq_getElem hi,
      rehashChain_eq prev[i] t es hcap ht]
    rw [ih { t with table_ := bucketize t.hasher_ t.capacity_ (es ++ prev[i]) } (es ++ prev[i])
      hcap rfl (fun j hj => his j (List.mem_cons_of_mem _ hj))]
    simp [List.getElem?_eq_getElem hi]

theorem map_getD_range_take (l : List (Chain K V)) (b : Nat) :
    (List.range (min l.length b)).map (fun i => (l[i]?).getD []) = l.take b := by
  apply List.ext_getElem?
  intro i
  by_cases hi : i < min l.length b
  · have h1 : i < l.length := by omega
    have h2 : i < b := by omega
    simp [List.getElem?_range hi, List.getElem?_eq_getElem h1, List.getElem?_take, h2]
  · rw [List.getElem?_eq_none (by simp; omega),
      List.getElem?_eq_none (by simp only [List.length_take]; omega)]

theorem rehash_eq (t : HashTable K V) (hlen : t.table_.length = t.capacity_) (n : Nat)
    (hn : 1 ≤ n) :
    t.rehash n =
      .ok { t with
            table_ := bucketize t.hasher_ n (t.table_.take (INT_MAX + 1)).flatten
            capacity_ := n } := by
  unfold HashTable.rehash
  rw [rehashSlots_eq t.table_ _ _ [] hn (bucketize_nil _ _).symm
    (fun i hi => by have := List.mem_range.mp hi; omega)]
  rw [← hlen, map_getD_range_take]
  simp

theorem take_flatten_sublist (L : List (Chain K V)) (b : Nat) :
    (L.take b).flatten.Sublist L.flatten := by
  have h : L.flatten = (L.take b).flatten ++ (L.drop b).flatten := by
    rw [← List.flatten_append, List.take_append_drop]
  rw [h]
  exact List.sublist_append_left _ _

end RehashLemmas

/-! ## Lists of chains -/

section ListLemmas

theorem filter_flatten_of_placed (g : Node K V → Nat) (L : List (Chain K V)) (off : Nat)
    (hpl : ∀ i c, L[i]? = some c → ∀ e ∈ c, g e = off + i) (m : Nat) :
    L.flatten.filter (fun e => decide (g e = m)) =
      if off ≤ m then (L[m - off]?).getD [] else [] := by
  induction L generalizing off with
  | nil => simp
  | cons c cs ih =>
    have hc : ∀ e ∈ c, g e = off := by
      intro e he
      have := hpl 0 c (by simp) e he
      simpa using this
    have hcs : ∀ i d, cs[i]? = some d → ∀ e ∈ d, g e = (off + 1) + i := by
      intro i d hd e he
      have := hpl (i + 1) d (by simpa using hd) e he
      omega
    rw [List.flatten_cons, List.filter_append, ih (off + 1) hcs]
    by_cases h1 : off = m
    · subst h1
      have : c.filter (fun e => decide (g e = off)) = c := by
        rw [List.filter_eq_self]
        intro e he
        simp [hc e he]
      simp [this]
    · have : c.filter (fun e => decide (g e = m)) = [] := by
        rw [List.filter_eq_nil_iff]
        intro e he
        simp [hc e he, h1]
      rw [this, List.nil_append]
      by_cases h2 : off + 1 ≤ m
      · rw [if_pos h2, if_pos (by omega)]
        have hm : m - off = (m - (off + 1)) + 1 := by omega
        rw [hm, List.getElem?_cons_succ]
      · rw [if_neg h2, if_neg (by omega)]

theorem nodup_flatten_of_placed (g : K → Nat) (L : List (Chain K V)) (off : Nat)
    (hpl : ∀ i c, L[i]? = some c → ∀ e ∈ c, g e.key_ = off + i)
    (hnd : ∀ c ∈ L, (c.map Node.key_).Nodup) :
    (L.flatten.map Node.key_).Nodup := by
  induction L generalizing off with
  | nil => simp
  | cons c cs ih =>
    have hc : ∀ e ∈ c, g e.key_ = off := by
      intro e he
      have := hpl 0 c (by simp) e he
      simpa using this
    have hcs : ∀ i d, cs[i]? = some d → ∀ e ∈ d, g e.key_ = (off + 1) + i := by
      intro i d hd e he
      have := hpl (i + 1) d (by simpa using hd) e he
      omega
    rw [List.flatten_cons, List.map_append, List.nodup_append]
    refine ⟨hnd c (List.mem_cons_self _ _), ih (off + 1) hcs
      (fun d hd => hnd d (List.mem_cons_of_mem _ hd)), ?_⟩
    intro k hk1 hk2
    rw [List.mem_map] at hk1 hk2
    obtain ⟨e1, he1, rfl⟩ := hk1
    obtain ⟨e2, he2, hkey⟩ := hk2
    rw [List.mem_flatten] at he2
    obtain ⟨d, hd, he2d⟩ := he2
    obtain ⟨i, hi, hid⟩ := List.getElem_of_mem hd
    have h1 := hc e1 he1
    have h2 := hcs i d (by rw [List.getElem?_eq_getElem hi, hid]) e2 he2d
    rw [hkey] at h2
    omega

theorem sum_length_set (L : List (Chain K V)) (j : Nat) (hj : j < L.length)
    (c : Chain K V) :
    ((L.set j c).map List.length).sum + ((L[j]?).getD []).length =
      (L.map List.length).sum + c.length := by
  induction L generalizing j with
  | nil => simp at hj
  | cons d ds ih =>
    cases j with
    | zero => simp; omega
    | succ j =>
      have hj2 : j < ds.length := by simpa using hj
      have := ih j hj2
      simp only [List.set_cons_succ, List.map_cons, List.sum_cons, List.getElem?_cons_succ]
      omega

theorem sum_length_bucketize (h : K → Nat) (n : Nat) (hn : 1 ≤ n) (es : Chain K V) :
    ((bucketize h n es).map List.length).sum = es.length := by
  induction es using List.reverseRecOn with
  | nil => simp [bucketize_nil]
  | append_singleton es e ih =>
    rw [bucketize_snoc h n es e hn]
    have hj : h e.key_ % n < (bucketize h n es).length := by
      rw [length_bucketize]; exact Nat.mod_lt _ hn
    have := sum_length_set (bucketize h n es) (h e.key_ % n) hj
      (es.filter (fun x => decide (h x.key_ % n = h e.key_ % n)) ++ [e])
    rw [getElem?_bucketize h n es _ (Nat.mod_lt _ hn)] at this
    simp only [Option.getD_some, List.length_append, List.length_singleton] at this
    rw [List.length_append, List.length_singleton]
    omega

end ListLemmas

/-! ## Chains: `lookup`, `put` and the removal of a key -/

section ChainLemmas
variable [DecidableEq K]

theorem lookup_put_self (k : K) (v : V) (c : Chain K V) : lookup k (put k v c) = some v := by
  induction c with
  | nil => simp [put, lookup]
  | cons n rest ih =>
    by_cases hn : n.key_ = k
    · simp [put, lookup, hn]
    · have ih2 := ih
      simp only [lookup] at ih2
      simp [put, lookup, hn, ih2]

theorem lookup_put_ne (k k2 : K) (v : V) (c : Chain K V) (hne : k2 ≠ k) :
    lookup k2 (put k v c) = lookup k2 c := by
  induction c with
  | nil => simp [put, lookup, hne.symm]
  | cons n rest ih =>
    by_cases hn : n.key_ = k
    · have : ¬ n.key_ = k2 := fun e => hne (e.symm.trans hn)
      simp [put, lookup, hn, hne.symm]
    · simp only [lookup] at ih
      by_cases hn2 : n.key_ = k2
      · subst hn2
        simp [put, lookup, hn]
      · simp [put, lookup, hn, hn2, ih]

theorem keys_put (k : K) (v : V) (c : Chain K V) :
    (put k v c).map Node.key_ =
      if k ∈ c.map Node.key_ then c.map Node.key_ else c.map Node.key_ ++ [k] := by
  induction c with
  | nil => simp [put]
  | cons n rest ih =>
    by_cases hn : n.key_ = k
    · simp [put, hn]
    · have hn2 : ¬ k = n.key_ := fun e => hn e.symm
      simp only [put, hn, if_false, List.map_cons, ih, List.mem_cons, hn2, false_or]
      split <;> simp

theorem length_put (k : K) (v : V) (c : Chain K V) :
    (put k v c).length = if k ∈ c.map Node.key_ then c.length else c.length + 1 := by
  have := congrArg List.length (keys_put k v c)
  rw [List.length_map] at this
  rw [this]
  split <;> simp

theorem nodup_put (k : K) (v : V) (c : Chain K V) (h : (c.map Node.key_).Nodup) :
    ((put k v c).map Node.key_).Nodup := by
  rw [keys_put]
  split
  · exact h
  · rename_i hk
    rw [List.nodup_append]
    refine ⟨h, List.nodup_singleton k, ?_⟩
    intro a ha hb
    rw [List.mem_singleton] at hb
    subst hb
    exact hk ha

theorem key_of_mem_put (k : K) (v : V) (c : Chain K V) (e : Node K V)
    (he : e ∈ put k v c) : e.key_ = k ∨ e ∈ c := by
  induction c with
  | nil =>
    simp only [put, List.mem_singleton] at he
    left; rw [he]
  | cons n rest ih =>
    by_cases hn : n.key_ = k
    · simp only [put, hn, if_true, List.mem_cons] at he
      rcases he with rfl | he
      · left; rfl
      · right; exact List.mem_cons_of_mem _ he
    · simp only [put, hn, if_false, List.mem_cons] at he
      rcases he with rfl | he
      · right; exact List.mem_cons_self _ _
      · rcases ih he with h1 | h1
        · left; exact h1
        · right; exact List.mem_cons_of_mem _ h1

theorem lookup_eq_none_iff (k : K) (c : Chain K V) :
    lookup k c = none ↔ k ∉ c.map Node.key_ := by
  unfold lookup
  rw [Option.map_eq_none', List.find?_eq_none]
  constructor
  · intro h hk
    rw [List.mem_map] at hk
    obtain ⟨e, he, hek⟩ := hk
    exact h e he (by simp [hek])
  · intro h e he hek
    apply h
    rw [List.mem_map]
    exact ⟨e, he, by simpa using hek⟩

theorem lookup_isSome_iff (k : K) (c : Chain K V) :
    (∃ v, lookup k c = some v) ↔ k ∈ c.map Node.key_ := by
  have := lookup_eq_none_iff k c
  cases h : lookup k c with
  | none => simp only [h, true_iff] at this; simp [this]
  | some v =>
    simp only [h, false_iff, not_not, reduceCtorEq] at this
    simp [this]

theorem lookup_filter (k : K) (c : Chain K V) (q : Node K V → Bool)
    (hq : ∀ e, e.key_ = k → q e = true) :
    lookup k (c.filter q) = lookup k c := by
  induction c with
  | nil => rfl
  | cons n rest ih =>
    simp only [lookup] at ih
    by_cases hn : n.key_ = k
    · simp [lookup, List.filter_cons, hq n hn, hn]
    · cases hqn : q n
      · simp [-List.find?_filter, lookup, List.filter_cons, hqn, hn, ih]
      · simp [-List.find?_filter, lookup, List.filter_cons, hqn, hn, ih]

theorem lookup_eraseP_ne (k k2 : K) (c : Chain K V) (hne : k2 ≠ k) :
    lookup k2 (c.eraseP (fun n => decide (n.key_ = k))) = lookup k2 c := by
  induction c with
  | nil => rfl
  | cons n rest ih =>
    by_cases hn : n.key_ = k
    · subst hn
      simp [lookup, Ne.symm hne]
    · simp only [lookup] at ih
      by_cases hn2 : n.key_ = k2
      · subst hn2
        simp [lookup, hn]
      · simp [lookup, hn, hn2, ih]

theorem not_mem_keys_eraseP (k : K) (c : Chain K V) (h : (c.map Node.key_).Nodup) :
    k ∉ (c.eraseP (fun n => decide (n.key_ = k))).map Node.key_ := by
  induction c with
  | nil => simp
  | cons n rest ih =>
    rw [List.map_cons, List.nodup_cons] at h
    by_cases hn : n.key_ = k
    · rw [List.eraseP_cons_of_pos (by simp [hn])]
      rw [← hn]; exact h.1
    · rw [List.eraseP_cons_of_neg (by simp [hn])]
      simp only [List.map_cons, List.mem_cons, not_or]
      exact ⟨fun e => hn e.symm, ih h.2⟩

theorem nodup_keys_eraseP (k : K) (c : Chain K V) (h : (c.map Node.key_).Nodup) :
    ((c.eraseP (fun n => decide (n.key_ = k))).map Node.key_).Nodup :=
  h.sublist ((List.eraseP_sublist c).map Node.key_)

theorem length_eraseP_key (k : K) (c : Chain K V) (h : k ∈ c.map Node.key_) :
    (c.eraseP (fun n => decide (n.key_ = k))).length + 1 = c.length := by
  rw [List.mem_map] at h
  obtain ⟨e, he, hek⟩ := h
  have := List.length_eraseP_of_mem (p := fun n => decide (n.key_ = k)) he (by simp [hek])
  have hpos : 0 < c.length := List.length_pos_of_mem he
  omega

end ChainLemmas

/-! ## The invariant is kept -/

section InvLemmas
variable [DecidableEq K]

omit [DecidableEq K] in
theorem Inv_init (c : Nat) (lf : ℚ) (h : K → Nat) (hc : 1 ≤ c) :
    (HashTable.init c lf h : HashTable K V).Inv where
  length_eq := by simp [HashTable.init]
  cap_pos := hc
  placed := by
    intro i chain hch n hn
    simp only [HashTable.init, List.getElem?_replicate] at hch
    split at hch
    · cases hch; simp at hn
    · cases hch
  size_le := by simp [HashTable.init]
  nodup := by
    intro chain hch
    simp only [HashTable.init] at hch
    rw [List.eq_of_mem_replicate hch]
    exact List.nodup_nil

omit [DecidableEq K] in
theorem length_le_sum (L : List (Chain K V)) (j : Nat) (hj : j < L.length) :
    ((L[j]?).getD []).length ≤ (L.map List.length).sum := by
  have := sum_length_set L j hj []
  simp only [List.length_nil, Nat.add_zero] at this
  omega

omit [DecidableEq K] in
theorem Inv_set (t : HashTable K V) (hI : t.Inv) (j : Nat) (hj : j < t.capacity_)
    (c : Chain K V) (hpl : ∀ e ∈ c, t.hasher_ e.key_ % t.capacity_ = j)
    (hnd : (c.map Node.key_).Nodup) (s : Nat)
    (hs : s + ((t.table_[j]?).getD []).length = t.size_ + c.length) :
    HashTable.Inv { t with table_ := t.table_.set j c, size_ := s } where
  length_eq := by simp [hI.length_eq]
  cap_pos := hI.cap_pos
  placed := by
    intro i chain hch n hn
    simp only [List.getElem?_set] at hch
    split at hch
    · rename_i hji
      split at hch
      · cases hch
        rw [← hji]; exact hpl n hn
      · cases hch
    · exact hI.placed i chain hch n hn
  size_le := by
    have := sum_length_set t.table_ j (by rw [hI.length_eq]; exact hj) c
    have h2 := hI.size_le
    simp only
    omega
  nodup := by
    intro chain hch
    rcases List.mem_or_eq_of_mem_set hch with h1 | h1
    · exact hI.nodup chain h1
    · rw [h1]; exact hnd

omit [DecidableEq K] in
theorem placed_chainOf (t : HashTable K V) (hI : t.Inv) (k : K) :
    ∀ e ∈ t.chainOf k, t.hasher_ e.key_ % t.capacity_ = t.hasher_ k % t.capacity_ :=
  hI.placed _ _ (getElem?_chainOf t hI.length_eq hI.cap_pos k)

omit [DecidableEq K] in
theorem nodup_chainOf (t : HashTable K V) (hI : t.Inv) (k : K) :
    ((t.chainOf k).map Node.key_).Nodup :=
  hI.nodup _ (List.getElem?_mem (getElem?_chainOf t hI.length_eq hI.cap_pos k))

theorem Inv_stored (t : HashTable K V) (hI : t.Inv) (k : K) (v : V) : (t.stored k v).Inv := by
  unfold HashTable.stored
  apply Inv_set t hI _ (Nat.mod_lt _ hI.cap_pos)
  · intro e he
    rcases key_of_mem_put k v _ e he with h1 | h1
    · rw [h1]
    · exact placed_chainOf t hI k e h1
  · exact nodup_put k v _ (nodup_chainOf t hI k)
  · rw [getElem?_chainOf t hI.length_eq hI.cap_pos k, length_put]
    simp only [Option.getD_some]
    split <;> omega

theorem Inv_erased (t : HashTable K V) (hI : t.Inv) (k : K) : (t.erased k).Inv := by
  unfold HashTable.erased
  split
  · rename_i hk
    apply Inv_set t hI _ (Nat.mod_lt _ hI.cap_pos)
    · intro e he
      exact placed_chainOf t hI k e ((List.eraseP_sublist _).subset he)
    · exact nodup_keys_eraseP k _ (nodup_chainOf t hI k)
    · have h1 := length_eraseP_key k _ hk
      have h2 := length_le_sum t.table_ (t.hasher_ k % t.capacity_)
        (by rw [hI.length_eq]; exact Nat.mod_lt _ hI.cap_pos)
      have h3 := hI.size_le
      rw [getElem?_chainOf t hI.length_eq hI.cap_pos k] at h2 ⊢
      simp only [Option.getD_some] at h2 ⊢
      have h4 : t.size_ ≠ 0 := by omega
      simp only [decr, if_neg h4]
      omega
  · exact hI

omit [DecidableEq K] in
theorem Inv_rehashed (t : HashTable K V) (hI : t.Inv) (n : Nat) (hn : 1 ≤ n) :
    HashTable.Inv
      { t with
        table_ := bucketize t.hasher_ n (t.table_.take (INT_MAX + 1)).flatten
        capacity_ := n } where
  length_eq := length_bucketize _ _ _
  cap_pos := hn
  placed := by
    intro i chain hch e he
    have hi : i < n := by
      have := (List.getElem?_eq_some.mp hch).1
      rwa [length_bucketize] at this
    simp only [getElem?_bucketize _ _ _ _ hi, Option.some.injEq] at hch
    rw [← hch, List.mem_filter] at he
    simpa using he.2
  size_le := by
    simp only
    rw [sum_length_bucketize _ _ hn]
    have h1 := (take_flatten_sublist t.table_ (INT_MAX + 1)).length_le
    rw [List.length_flatten t.table_] at h1
    exact le_trans h1 hI.size_le
  nodup := by
    intro chain hch
    obtain ⟨i, hi, hic⟩ := List.getElem_of_mem hch
    have hi2 : i < n := by rwa [length_bucketize] at hi
    have h1 : (bucketize t.hasher_ n (t.table_.take (INT_MAX + 1)).flatten)[i]? =
        some chain := by
      rw [List.getElem?_eq_getElem hi, hic]
    simp only [getElem?_bucketize _ _ _ _ hi2, Option.some.injEq] at h1
    have h2 := nodup_flatten_of_placed (fun k => t.hasher_ k % t.capacity_) t.table_ 0
      (by simpa using hI.placed) hI.nodup
    rw [← h1]
    exact h2.sublist
      (((List.filter_sublist _).trans (take_flatten_sublist t.table_ _)).map Node.key_)

omit [DecidableEq K] in
theorem Inv_grown (t : HashTable K V) (hI : t.Inv) : t.grown.Inv := by
  unfold HashTable.grown
  split
  · exact Inv_rehashed t hI _ (by have := hI.cap_pos; omega)
  · exact hI

omit [DecidableEq K] in
theorem growIfNeeded_eq (t : HashTable K V) (hlen : t.table_.length = t.capacity_)
    (hcap : 1 ≤ t.capacity_) : t.growIfNeeded = .ok t.grown := by
  unfold HashTable.growIfNeeded HashTable.grown
  split
  · exact rehash_eq t hlen _ (by omega)
  · rfl

theorem insert_ok (t : HashTable K V) (hI : t.Inv) (k : K) (v : V) :
    t.insert k v = .ok (t.stored k v).grown := by
  rw [insert_eq t hI.length_eq hI.cap_pos,
    growIfNeeded_eq _ (Inv_stored t hI k v).length_eq (Inv_stored t hI k v).cap_pos]

theorem erase_ok (t : HashTable K V) (hI : t.Inv) (k : K) :
    t.erase k = .ok (t.erased k) :=
  erase_eq t hI.length_eq hI.cap_pos k

theorem step_ok (t : HashTable K V) (hI : t.Inv) (o : Op K V) :
    ∃ t1, t.step o = .ok t1 ∧ t1.Inv := by
  cases o with
  | insert k v => exact ⟨_, insert_ok t hI k v, Inv_grown _ (Inv_stored t hI k v)⟩
  | erase k => exact ⟨_, erase_ok t hI k, Inv_erased t hI k⟩

theorem run_ok (ops : List (Op K V)) (t : HashTable K V) (hI : t.Inv) :
    ∃ t1, t.run ops = .ok t1 ∧ t1.Inv := by
  induction ops generalizing t with
  | nil => exact ⟨t, rfl, hI⟩
  | cons o os ih =>
    obtain ⟨t1, h1, hI1⟩ := step_ok t hI o
    obtain ⟨t2, h2, hI2⟩ := ih t1 hI1
    exact ⟨t2, by simp only [HashTable.run, h1, h2], hI2⟩

theorem Inv_of_run (c : Nat) (lf : ℚ) (h : K → Nat) (hc : 1 ≤ c) (ops : List (Op K V))
    (t : HashTable K V) (hrun : (HashTable.init c lf h).run ops = .ok t) : t.Inv := by
  obtain ⟨t1, h1, hI1⟩ := run_ok ops (HashTable.init c lf h) (Inv_init c lf h hc)
  rw [h1] at hrun
  cases hrun
  exact hI1

end InvLemmas

/-! ## What `find` sees after each operation -/

section FindLemmas
variable [DecidableEq K]

omit [DecidableEq K] in
theorem chainOf_set (t : HashTable K V) (hlen : t.table_.length = t.capacity_) (j : Nat)
    (hj : j < t.capacity_) (c : Chain K V) (s : Nat) (k : K) :
    HashTable.chainOf { t with table_ := t.table_.set j c, size_ := s } k =
      if t.hasher_ k % t.capacity_ = j then c else t.chainOf k := by
  unfold HashTable.chainOf
  simp only [List.getElem?_set]
  by_cases h : t.hasher_ k % t.capacity_ = j
  · rw [if_pos h.symm, if_pos (by rw [hlen]; exact hj), if_pos h]
    rfl
  · rw [if_neg (fun e => h e.symm), if_neg h]

omit [DecidableEq K] in
theorem chainOf_congr (t : HashTable K V) (k k2 : K)
    (h : t.hasher_ k2 % t.capacity_ = t.hasher_ k % t.capacity_) :
    t.chainOf k2 = t.chainOf k := by
  unfold HashTable.chainOf
  rw [h]

theorem chainOf_stored (t : HashTable K V) (hI : t.Inv) (k : K) (v : V) (k2 : K) :
    (t.stored k v).chainOf k2 =
      if t.hasher_ k2 % t.capacity_ = t.hasher_ k % t.capacity_ then put k v (t.chainOf k)
      else t.chainOf k2 :=
  chainOf_set t hI.length_eq _ (Nat.mod_lt _ hI.cap_pos) _ _ k2

theorem lookup_stored (t : HashTable K V) (hI : t.Inv) (k : K) (v : V) (k2 : K) :
    lookup k2 ((t.stored k v).chainOf k2) =
      if k2 = k then some v else lookup k2 (t.chainOf k2) := by
  rw [chainOf_stored t hI]
  by_cases hk : k2 = k
  · subst hk
    simp [lookup_put_self]
  · rw [if_neg hk]
    split
    · rename_i hs
      rw [lookup_put_ne k k2 v _ hk, chainOf_congr t k k2 hs]
    · rfl

theorem chainOf_erased (t : HashTable K V) (hI : t.Inv) (k k2 : K) :
    (t.erased k).chainOf k2 =
      if t.hasher_ k2 % t.capacity_ = t.hasher_ k % t.capacity_ then
        (t.chainOf k).eraseP (fun n => decide (n.key_ = k))
      else t.chainOf k2 := by
  unfold HashTable.erased
  by_cases hk : k ∈ (t.chainOf k).map Node.key_
  · rw [if_pos hk]
    exact chainOf_set t hI.length_eq _ (Nat.mod_lt _ hI.cap_pos) _ _ k2
  · rw [if_neg hk]
    have : (t.chainOf k).eraseP (fun n => decide (n.key_ = k)) = t.chainOf k := by
      apply List.eraseP_of_forall_not
      intro e he hek
      apply hk
      rw [List.mem_map]
      exact ⟨e, he, by simpa using hek⟩
    rw [this]
    split
    · rename_i hs
      exact chainOf_congr t k k2 hs
    · rfl

theorem lookup_erased (t : HashTable K V) (hI : t.Inv) (k k2 : K) :
    lookup k2 ((t.erased k).chainOf k2) =
      if k2 = k then none else lookup k2 (t.chainOf k2) := by
  rw [chainOf_erased t hI]
  by_cases hk : k2 = k
  · subst hk
    simp only [if_true]
    rw [lookup_eq_none_iff]
    exact not_mem_keys_eraseP k2 _ (nodup_chainOf t hI k2)
  · rw [if_neg hk]
    split
    · rename_i hs
      rw [lookup_eraseP_ne k k2 _ hk, chainOf_congr t k k2 hs]
    · rfl

omit [DecidableEq K] in
theorem chainOf_rehashed (t : HashTable K V) (es : Chain K V) (n : Nat) (hn : 1 ≤ n) (k : K) :
    HashTable.chainOf { t with table_ := bucketize t.hasher_ n es, capacity_ := n } k =
      es.filter (fun e => decide (t.hasher_ e.key_ % n = t.hasher_ k % n)) := by
  unfold HashTable.chainOf
  simp only [getElem?_bucketize _ _ _ _ (Nat.mod_lt _ hn), Option.getD_some]

omit [DecidableEq K] in
theorem take_flatten_filter (t : HashTable K V) (hI : t.Inv) (b : Nat) (k : K) :
    (t.table_.take b).flatten.filter
        (fun e => decide (t.hasher_ e.key_ % t.capacity_ = t.hasher_ k % t.capacity_)) =
      if t.hasher_ k % t.capacity_ < b then t.chainOf k else [] := by
  rw [filter_flatten_of_placed (fun e => t.hasher_ e.key_ % t.capacity_) (t.table_.take b) 0]
  · simp only [Nat.zero_le, if_true, Nat.sub_zero, List.getElem?_take]
    split
    · rfl
    · rfl
  · intro i c hc e he
    rw [List.getElem?_take] at hc
    split at hc
    · simpa using hI.placed i c hc e he
    · cases hc

theorem lookup_take_flatten (t : HashTable K V) (hI : t.Inv) (b : Nat) (k : K) :
    lookup k (t.table_.take b).flatten =
      if t.hasher_ k % t.capacity_ < b then lookup k (t.chainOf k) else none := by
  have h := take_flatten_filter t hI b k
  have h2 := lookup_filter k (t.table_.take b).flatten
    (fun e => decide (t.hasher_ e.key_ % t.capacity_ = t.hasher_ k % t.capacity_))
    (by intro e he; simp [he])
  rw [← h2, h]
  split <;> rfl

theorem lookup_grown_eq (t : HashTable K V) (hI : t.Inv) (k : K) :
    lookup k (t.grown.chainOf k) =
      if roundDouble ((t.size_ : ℚ) / (t.capacity_ : ℚ)) > t.load_factor_ ∧
          INT_MAX + 1 ≤ t.hasher_ k % t.capacity_ then none
      else lookup k (t.chainOf k) := by
  unfold HashTable.grown
  by_cases hg : roundDouble ((t.size_ : ℚ) / (t.capacity_ : ℚ)) > t.load_factor_
  · rw [if_pos hg, chainOf_rehashed t _ _ (by have := hI.cap_pos; omega) k, lookup_filter,
      lookup_take_flatten t hI]
    · by_cases hs : t.hasher_ k % t.capacity_ < INT_MAX + 1
      · rw [if_pos hs, if_neg (by omega)]
      · rw [if_neg hs, if_pos ⟨hg, by omega⟩]
    · intro e he
      simp [he]
  · rw [if_neg hg, if_neg (fun h => hg h.1)]

theorem lookup_grown (t : HashTable K V) (hI : t.Inv) (k : K)
    (hs : t.hasher_ k % t.capacity_ < INT_MAX + 1) :
    lookup k (t.grown.chainOf k) = lookup k (t.chainOf k) := by
  rw [lookup_grown_eq t hI, if_neg (fun h => by omega)]

theorem lookup_grown_dropped (t : HashTable K V) (hI : t.Inv) (k : K)
    (hg : roundDouble ((t.size_ : ℚ) / (t.capacity_ : ℚ)) > t.load_factor_)
    (hs : INT_MAX + 1 ≤ t.hasher_ k % t.capacity_) :
    lookup k (t.grown.chainOf k) = none := by
  rw [lookup_grown_eq t hI, if_pos ⟨hg, hs⟩]

omit [DecidableEq K] in
theorem grown_of_not_gt (t : HashTable K V)
    (hg : ¬ roundDouble ((t.size_ : ℚ) / (t.capacity_ : ℚ)) > t.load_factor_) :
    t.grown = t := by
  unfold HashTable.grown
  rw [if_neg hg]

theorem find_ok (t : HashTable K V) (hI : t.Inv) (k : K) :
    t.find k = .ok (lookup k (t.chainOf k)) :=
  find_eq t hI.length_eq hI.cap_pos k

theorem find_inserted (t : HashTable K V) (hI : t.Inv) (k : K) (v : V) (k2 : K)
    (hs : t.hasher_ k2 % t.capacity_ < INT_MAX + 1) :
    (t.stored k v).grown.find k2 = if k2 = k then .ok (some v) else t.find k2 := by
  rw [find_ok _ (Inv_grown _ (Inv_stored t hI k v)),
    lookup_grown _ (Inv_stored t hI k v) k2 hs, lookup_stored t hI, find_ok t hI]
  split <;> rfl

theorem find_inserted_of_le (t : HashTable K V) (hI : t.Inv) (k : K) (v : V) (k2 : K)
    (hc : t.capacity_ ≤ INT_MAX + 1) :
    (t.stored k v).grown.find k2 = if k2 = k then .ok (some v) else t.find k2 :=
  find_inserted t hI k v k2 (lt_of_lt_of_le (Nat.mod_lt _ hI.cap_pos) hc)

theorem find_inserted_of_not_gt (t : HashTable K V) (hI : t.Inv) (k : K) (v : V) (k2 : K)
    (hg : ¬ roundDouble (((t.stored k v).size_ : ℚ) / (t.capacity_ : ℚ)) > t.load_factor_) :
    (t.stored k v).grown.find k2 = if k2 = k then .ok (some v) else t.find k2 := by
  rw [grown_of_not_gt _ hg, find_ok _ (Inv_stored t hI k v), lookup_stored t hI, find_ok t hI]
  split <;> rfl

theorem find_inserted_dropped (t : HashTable K V) (hI : t.Inv) (k : K) (v : V) (k2 : K)
    (hg : roundDouble (((t.stored k v).size_ : ℚ) / (t.capacity_ : ℚ)) > t.load_factor_)
    (hs : INT_MAX + 1 ≤ t.hasher_ k2 % t.capacity_) :
    (t.stored k v).grown.find k2 = .ok none := by
  rw [find_ok _ (Inv_grown _ (Inv_stored t hI k v)),
    lookup_grown_dropped _ (Inv_stored t hI k v) k2 hg hs]

theorem find_erased (t : HashTable K V) (hI : t.Inv) (k k2 : K) :
    (t.erased k).find k2 = if k2 = k then .ok none else t.find k2 := by
  rw [find_ok _ (Inv_erased t hI k), lookup_erased t hI, find_ok t hI]
  split <;> rfl

end FindLemmas

/-! ## Sizes and capacities -/

section FieldLemmas
variable [DecidableEq K]

omit [DecidableEq K] in
theorem size_grown (t : HashTable K V) : t.grown.size_ = t.size_ := by
  unfold HashTable.grown
  split <;> rfl

omit [DecidableEq K] in
theorem load_factor_grown (t : HashTable K V) : t.grown.load_factor_ = t.load_factor_ := by
  unfold HashTable.grown
  split <;> rfl

omit [DecidableEq K] in
theorem capacity_grown (t : HashTable K V) :
    t.grown.capacity_ =
      if roundDouble ((t.size_ : ℚ) / (t.capacity_ : ℚ)) > t.load_factor_ then 2 * t.capacity_
      else t.capacity_ := by
  unfold HashTable.grown
  split
  · exact Nat.mul_comm _ _
  · rfl

theorem size_stored (t : HashTable K V) (k : K) (v : V) :
    (t.stored k v).size_ =
      if (lookup k (t.chainOf k)).isSome then t.size_ else t.size_ + 1 := by
  unfold HashTable.stored
  have h1 := lookup_eq_none_iff k (t.chainOf k)
  by_cases h : k ∈ (t.chainOf k).map Node.key_
  · have h2 : (lookup k (t.chainOf k)).isSome = true := by
      rw [Option.isSome_iff_ne_none]
      exact fun e => (h1.mp e) h
    simp only [if_pos h, h2, if_true]
  · have h2 : lookup k (t.chainOf k) = none := h1.mpr h
    simp only [if_neg h, h2, Option.isSome_none, Bool.false_eq_true, if_false]

omit [DecidableEq K] in
theorem initDefault_eq_init (h : K → Nat) :
    (HashTable.initDefault h : HashTable K V) = HashTable.init 100 (1 / 2) h := by
  unfold HashTable.initDefault HashTable.init
  norm_num

theorem Inv_of_reachable (t : HashTable K V) (hr : t.Reachable) : t.Inv := by
  obtain ⟨c, lf, h, ops, hc, _, hrun⟩ := hr
  exact Inv_of_run c lf h hc ops t hrun

end FieldLemmas

/-! ## Capacity through the raw operations -/

section CapacityLemmas

theorem insertNode_capacity (t t1 : HashTable K V) (e : Node K V)
    (h : t.insertNode e = .ok t1) : t1.capacity_ = t.capacity_ := by
  unfold HashTable.insertNode at h
  split at h
  · cases h
  · split at h
    · cases h
    · cases h; rfl
    · split at h
      · cases h
      · cases h; rfl

theorem rehashChain_capacity (c : Chain K V) (t t1 : HashTable K V)
    (h : t.rehashChain c = .ok t1) : t1.capacity_ = t.capacity_ := by
  induction c generalizing t with
  | nil =>
    simp only [HashTable.rehashChain] at h
    cases h; rfl
  | cons e rest ih =>
    simp only [HashTable.rehashChain] at h
    split at h
    · cases h
    · rename_i t2 h2
      rw [ih t2 h, insertNode_capacity t t2 e h2]

theorem rehashSlots_capacity (prev : List (Chain K V)) (is : List Nat) (t t1 : HashTable K V)
    (h : HashTable.rehashSlots prev t is = .ok t1) : t1.capacity_ = t.capacity_ := by
  induction is generalizing t with
  | nil =>
    simp only [HashTable.rehashSlots] at h
    cases h; rfl
  | cons i rest ih =>
    simp only [HashTable.rehashSlots] at h
    split at h
    · cases h
    · split at h
      · cases h
      · rename_i t2 h2
        rw [ih t2 h, rehashChain_capacity _ t t2 h2]

theorem rehash_capacity (t t1 : HashTable K V) (n : Nat) (h : t.rehash n = .ok t1) :
    t1.capacity_ = n := by
  unfold HashTable.rehash at h
  rw [rehashSlots_capacity _ _ _ t1 h]

theorem growIfNeeded_capacity (t t1 : HashTable K V) (h : t.growIfNeeded = .ok t1) :
    t1.capacity_ = t.capacity_ ∨ t1.capacity_ = 2 * t.capacity_ := by
  unfold HashTable.growIfNeeded at h
  split at h
  · right
    rw [rehash_capacity t t1 _ h, Nat.mul_comm]
  · left
    cases h; rfl

theorem insert_capacity [DecidableEq K] (t t1 : HashTable K V) (k : K) (v : V)
    (h : t.insert k v = .ok t1) :
    t1.capacity_ = t.capacity_ ∨ t1.capacity_ = 2 * t.capacity_ := by
  unfold HashTable.insert at h
  split at h
  · cases h
  · split at h
    · cases h
    · have h2 := growIfNeeded_capacity _ t1 h
      exact h2
    · split at h
      · split at h
        · cases h
        · have h2 := growIfNeeded_capacity _ t1 h
          exact h2
      · have h2 := growIfNeeded_capacity _ t1 h
        exact h2

theorem erase_capacity [DecidableEq K] (t t1 : HashTable K V) (k : K)
    (h : t.erase k = .ok t1) : t1.capacity_ = t.capacity_ := by
  unfold HashTable.erase at h
  split at h
  · cases h
  · split at h
    · cases h
    · split at h
      · cases h; rfl
      · cases h; rfl

end CapacityLemmas

/-! ## Splitting a chain at a key -/

section SplitLemmas
variable [DecidableEq K]

theorem split_at_key (k : K) (c : Chain K V) (hk : k ∈ c.map Node.key_) :
    ∃ pre e post, c = pre ++ e :: post ∧ e.key_ = k ∧ (∀ n ∈ pre, n.key_ ≠ k) ∧
      (∀ v, put k v c = pre ++ ⟨e.key_, v⟩ :: post) ∧
      c.eraseP (fun n => decide (n.key_ = k)) = pre ++ post ∧
      lookup k c = some e.value_ := by
  cases hs : scan k c with
  | mk pre rest =>
    cases rest with
    | nil => exact absurd hk (scan_snd_nil k c (by rw [hs]))
    | cons e post =>
      have happ := scan_append k c
      have hne := scan_fst_ne k c
      have hput := fun v => put_eq_scan k v c
      have her := eraseP_eq_scan k c
      have hhead := scan_snd_head k c
      rw [hs] at happ hne her hhead
      simp only [hs] at hput
      refine ⟨pre, e, post, happ.symm, scan_snd_key k c e post (by rw [hs]), hne, hput, her, ?_⟩
      unfold lookup
      rw [← hhead]
      rfl

omit [DecidableEq K] in
theorem chainOf_init (c : Nat) (lf : ℚ) (h : K → Nat) (k : K) :
    (HashTable.init c lf h : HashTable K V).chainOf k = [] := by
  unfold HashTable.chainOf HashTable.init
  simp only [List.getElem?_replicate]
  split <;> rfl

end SplitLemmas

/-! ## The load factor through the raw operations -/

section LoadFactorLemmas

theorem insertNode_load_factor (t t1 : HashTable K V) (e : Node K V)
    (h : t.insertNode e = .ok t1) : t1.load_factor_ = t.load_factor_ := by
  unfold HashTable.insertNode at h
  split at h
  · cases h
  · split at h
    · cases h
    · cases h; rfl
    · split at h
      · cases h
      · cases h; rfl

theorem rehashChain_load_factor (c : Chain K V) (t t1 : HashTable K V)
    (h : t.rehashChain c = .ok t1) : t1.load_factor_ = t.load_factor_ := by
  induction c generalizing t with
  | nil =>
    simp only [HashTable.rehashChain] at h
    cases h; rfl
  | cons e rest ih =>
    simp only [HashTable.rehashChain] at h
    split at h
    · cases h
    · rename_i t2 h2
      rw [ih t2 h, insertNode_load_factor t t2 e h2]

theorem rehashSlots_load_factor (prev : List (Chain K V)) (is : List Nat)
    (t t1 : HashTable K V) (h : HashTable.rehashSlots prev t is = .ok t1) :
    t1.load_factor_ = t.load_factor_ := by
  induction is generalizing t with
  | nil =>
    simp only [HashTable.rehashSlots] at h
    cases h; rfl
  | cons i rest ih =>
    simp only [HashTable.rehashSlots] at h
    split at h
    · cases h
    · split at h
      · cases h
      · rename_i t2 h2
        rw [ih t2 h, rehashChain_load_factor _ t t2 h2]

theorem rehash_load_factor (t t1 : HashTable K V) (n : Nat) (h : t.rehash n = .ok t1) :
    t1.load_factor_ = t.load_factor_ := by
  unfold HashTable.rehash at h
  rw [rehashSlots_load_factor _ _ _ t1 h]

theorem growIfNeeded_load_factor (t t1 : HashTable K V) (h : t.growIfNeeded = .ok t1) :
    t1.load_factor_ = t.load_factor_ := by
  unfold HashTable.growIfNeeded at h
  split at h
  · exact rehash_load_factor t t1 _ h
  · cases h; rfl

theorem insert_load_factor [DecidableEq K] (t t1 : HashTable K V) (k : K) (v : V)
    (h : t.insert k v = .ok t1) : t1.load_factor_ = t.load_factor_ := by
  unfold HashTable.insert at h
  split at h
  · cases h
  · split at h
    · cases h
    · have h2 := growIfNeeded_load_factor _ t1 h
      exact h2
    · split at h
      · split at h
        · cases h
        · have h2 := growIfNeeded_load_factor _ t1 h
          exact h2
      · have h2 := growIfNeeded_load_factor _ t1 h
        exact h2

theorem erase_load_factor [DecidableEq K] (t t1 : HashTable K V) (k : K)
    (h : t.erase k = .ok t1) : t1.load_factor_ = t.load_factor_ := by
  unfold HashTable.erase at h
  split at h
  · cases h
  · split at h
    · cases h
    · split at h
      · cases h; rfl
      · cases h; rfl

theorem run_load_factor [DecidableEq K] (ops : List (Op K V)) (t t1 : HashTable K V)
    (h : t.run ops = .ok t1) : t1.load_factor_ = t.load_factor_ := by
  induction ops generalizing t with
  | nil =>
    simp only [HashTable.run] at h
    cases h; rfl
  | cons o os ih =>
    simp only [HashTable.run] at h
    split at h
    · cases h
    · rename_i t2 h2
      rw [ih t2 h]
      cases o with
      | insert k v => exact insert_load_factor t t2 k v h2
      | erase k => exact erase_load_factor t t2 k h2

theorem load_factor_init_range (c : Nat) (f : ℚ) (h : K → Nat) :
    0 < (HashTable.init c f h : HashTable K V).load_factor_ ∧
      (HashTable.init c f h : HashTable K V).load_factor_ ≤ 1 := by
  unfold HashTable.init
  simp only
  split
  · rename_i hf
    exact hf
  · norm_num

end LoadFactorLemmas

/-! ## The example tables are reachable -/

section ExampleLemmas

theorem twoKeys_reachable : twoKeys.Reachable :=
  ⟨4, 1 / 2, id, [Op.insert 1 1, Op.insert 2 2], by decide, by
    norm_num [HashTable.init, roundDouble_half], by
    simp [twoKeys, HashTable.run, HashTable.step, HashTable.insert, HashTable.slot,
      HashTable.init, HashTable.growIfNeeded, roundDouble_quarter, roundDouble_half,
      roundDouble_inv_two, roundDouble_inv_four]
    norm_num [roundDouble_half]⟩

theorem oneChain_reachable : oneChain.Reachable :=
  ⟨4, 1, id, [Op.insert 1 10, Op.insert 5 50, Op.insert 9 90], by decide, by
    norm_num [HashTable.init, roundDouble_one], by
    norm_num [oneChain, HashTable.run, HashTable.step, HashTable.insert, HashTable.slot,
      HashTable.init, HashTable.growIfNeeded, scan, roundDouble_quarter, roundDouble_half,
      roundDouble_three_quarters, roundDouble_inv_two, roundDouble_inv_four, roundDouble_one]
    rfl⟩

theorem double_of_reachable [DecidableEq K] (t : HashTable K V) (hr : t.Reachable) :
    roundDouble t.load_factor_ = t.load_factor_ := by
  obtain ⟨c, lf, h, ops, _, hd, hrun⟩ := hr
  rw [run_load_factor ops _ t hrun]
  exact hd

end ExampleLemmas

/-! ## Growth from more than `INT_MAX + 1` slots -/

section DropLemmas
variable [DecidableEq K]

omit [DecidableEq K] in
theorem roundDouble_gt_of_two_zpow (x L : ℚ) (k : ℤ) (h1 : (2 : ℚ) ^ k ≤ x)
    (h2 : L < (2 : ℚ) ^ k) : L < roundDouble x := by
  have := roundDouble_mono h1
  rw [roundDouble_two_zpow] at this
  exact lt_of_lt_of_le h2 this

omit [DecidableEq K] in
theorem roundDouble_tiny : roundDouble (1 / 2 ^ 40) = 1 / 2 ^ 40 := by
  have h := roundDouble_two_zpow (-40)
  have e : (2 : ℚ) ^ (-40 : ℤ) = 1 / 2 ^ 40 := by norm_num
  rwa [e] at h

omit [DecidableEq K] in
theorem roundDouble_three_tenths : roundDouble (3 / 10) = threeTenths := by
  have h := roundDouble_eq_of_floor (3 / 10) (-2) 5404319552844595 (by norm_num) (by norm_num)
    (by norm_num) (by norm_num)
  rw [h]
  norm_num [threeTenths]

omit [DecidableEq K] in
theorem roundDouble_threeTenths : roundDouble threeTenths = threeTenths := by
  have h := roundDouble_normal 5404319552844595 (-54) (by norm_num) (by norm_num)
  have e : ((5404319552844595 : ℕ) : ℚ) * 2 ^ (-54 : ℤ) = threeTenths := by
    norm_num [threeTenths]
  rwa [e] at h

theorem size_stored_pos (t : HashTable K V) (hI : t.Inv) (k : K) (v : V) :
    1 ≤ (t.stored k v).size_ := by
  unfold HashTable.stored
  simp only
  split
  · rename_i hmem
    have h2 := length_le_sum t.table_ (t.hasher_ k % t.capacity_)
      (by rw [hI.length_eq]; exact Nat.mod_lt _ hI.cap_pos)
    rw [getElem?_chainOf t hI.length_eq hI.cap_pos k] at h2
    simp only [Option.getD_some] at h2
    have h3 := hI.size_le
    have h4 : 0 < (t.chainOf k).length := by
      rw [List.mem_map] at hmem
      obtain ⟨e, he, _⟩ := hmem
      exact List.length_pos_of_mem he
    omega
  · omega

theorem stored_ratio_gt (t : HashTable K V) (hI : t.Inv) (k : K) (v : V) (z : ℤ)
    (h1 : (2 : ℚ) ^ z ≤ 1 / (t.capacity_ : ℚ)) (h2 : t.load_factor_ < (2 : ℚ) ^ z) :
    roundDouble (((t.stored k v).size_ : ℚ) / ((t.stored k v).capacity_ : ℚ)) >
      (t.stored k v).load_factor_ := by
  have hc : (t.stored k v).capacity_ = t.capacity_ := rfl
  have hl : (t.stored k v).load_factor_ = t.load_factor_ := rfl
  rw [hc, hl]
  apply roundDouble_gt_of_two_zpow _ _ z _ h2
  have hs : (1 : ℚ) ≤ ((t.stored k v).size_ : ℚ) := by
    exact_mod_cast size_stored_pos t hI k v
  have hcq : (0 : ℚ) < (t.capacity_ : ℚ) := by exact_mod_cast hI.cap_pos
  exact le_trans h1 (div_le_div_of_nonneg_right hs (le_of_lt hcq))

theorem insert_grows_of_gt (t : HashTable K V) (hI : t.Inv) (k : K) (v : V)
    (hg : roundDouble (((t.stored k v).size_ : ℚ) / (t.capacity_ : ℚ)) > t.load_factor_) :
    ∃ t1, t.insert k v = .ok t1 ∧ t1.Inv ∧
      t1.capacity_ = 2 * t.capacity_ ∧ t1.size_ = (t.stored k v).size_ ∧
      t1.load_factor_ = t.load_factor_ ∧ t1.hasher_ = t.hasher_ ∧
      t1.table_ = bucketize t.hasher_ (t.capacity_ * 2)
        ((t.stored k v).table_.take (INT_MAX + 1)).flatten ∧
      (∀ k2, t.hasher_ k2 % t.capacity_ < INT_MAX + 1 →
        t1.find k2 = if k2 = k then .ok (some v) else t.find k2) ∧
      (∀ k2, INT_MAX + 1 ≤ t.hasher_ k2 % t.capacity_ → t1.find k2 = .ok none) := by
  have hg2 : roundDouble (((t.stored k v).size_ : ℚ) / ((t.stored k v).capacity_ : ℚ)) >
      (t.stored k v).load_factor_ := hg
  refine ⟨_, insert_ok t hI k v, Inv_grown _ (Inv_stored t hI k v), ?_, size_grown _,
    load_factor_grown _, ?_, ?_, fun k2 hs => find_inserted t hI k v k2 hs,
    fun k2 hs => find_inserted_dropped t hI k v k2 hg hs⟩
  · rw [capacity_grown, if_pos hg2]
    rfl
  · unfold HashTable.grown
    rw [if_pos hg2]
    rfl
  · unfold HashTable.grown
    rw [if_pos hg2]
    rfl

theorem insert_grows (t : HashTable K V) (hI : t.Inv) (k : K) (v : V) (z : ℤ)
    (h1 : (2 : ℚ) ^ z ≤ 1 / (t.capacity_ : ℚ)) (h2 : t.load_factor_ < (2 : ℚ) ^ z) :
    ∃ t1, t.insert k v = .ok t1 ∧ t1.Inv ∧
      t1.capacity_ = 2 * t.capacity_ ∧ t1.size_ = (t.stored k v).size_ ∧
      t1.load_factor_ = t.load_factor_ ∧ t1.hasher_ = t.hasher_ ∧
      t1.table_ = bucketize t.hasher_ (t.capacity_ * 2)
        ((t.stored k v).table_.take (INT_MAX + 1)).flatten ∧
      (∀ k2, t.hasher_ k2 % t.capacity_ < INT_MAX + 1 →
        t1.find k2 = if k2 = k then .ok (some v) else t.find k2) ∧
      (∀ k2, INT_MAX + 1 ≤ t.hasher_ k2 % t.capacity_ → t1.find k2 = .ok none) :=
  insert_grows_of_gt t hI k v (stored_ratio_gt t hI k v z h1 h2)

theorem insert_new_no_growth (t : HashTable K V) (hI : t.Inv) (k : K) (v : V) (x : ℚ)
    (hnone : t.find k = .ok none)
    (hle : ((t.size_ + 1 : ℕ) : ℚ) / (t.capacity_ : ℚ) ≤ x)
    (hx : roundDouble x ≤ t.load_factor_) :
    ∃ t1, t.insert k v = .ok t1 ∧ t1.Inv ∧ t1.size_ = t.size_ + 1 ∧
      t1.capacity_ = t.capacity_ ∧ t1.load_factor_ = t.load_factor_ ∧
      ∀ k2, t1.find k2 = if k2 = k then .ok (some v) else t.find k2 := by
  rw [find_ok t hI] at hnone
  have hl := Except.ok.inj hnone
  have hsz : (t.stored k v).size_ = t.size_ + 1 := by
    rw [size_stored, hl]
    rfl
  have hg : ¬ roundDouble (((t.stored k v).size_ : ℚ) / ((t.stored k v).capacity_ : ℚ)) >
      (t.stored k v).load_factor_ := by
    rw [hsz]
    exact not_lt.mpr (le_trans (roundDouble_mono hle) hx)
  refine ⟨_, insert_ok t hI k v, Inv_grown _ (Inv_stored t hI k v), ?_, ?_, ?_, ?_⟩
  · rw [size_grown, hsz]
  · rw [grown_of_not_gt _ hg]
    rfl
  · rw [load_factor_grown]
    rfl
  · intro k2
    exact find_inserted_of_not_gt t hI k v k2 hg

omit [DecidableEq K] in
theorem load_factor_init_of_range (c : Nat) (f : ℚ) (h : K → Nat) (h0 : 0 < f) (h1 : f ≤ 1) :
    (HashTable.init c f h : HashTable K V).load_factor_ = f := by
  show (if 0 < f ∧ f ≤ 1 then f else 1 / 2) = f
  rw [if_pos ⟨h0, h1⟩]

theorem stored_init_eq (c : Nat) (f : ℚ) (h : K → Nat) (k : K) (v : V) (j : Nat)
    (h0 : 0 < f) (h1 : f ≤ 1) (hj : h k % c = j) :
    (HashTable.init c f h).stored k v =
      ⟨(List.replicate c []).set j [⟨k, v⟩], h, f, 1, c⟩ := by
  have hl := load_factor_init_of_range (V := V) c f h h0 h1
  unfold HashTable.stored
  rw [chainOf_init]
  simp only [put, List.map_nil, List.not_mem_nil, if_false]
  unfold HashTable.init at hl ⊢
  simp only at hl ⊢
  rw [hl, hj]

omit [DecidableEq K] in
theorem getElem?_set_replicate (n j i : Nat) (c chain : Chain K V)
    (h : ((List.replicate n ([] : Chain K V)).set j c)[i]? = some chain) :
    (i = j ∧ chain = c) ∨ chain = [] := by
  rw [List.getElem?_set] at h
  split at h
  · rename_i hij
    split at h
    · left
      exact ⟨hij.symm, (Option.some.inj h).symm⟩
    · cases h
  · right
    rw [List.getElem?_replicate] at h
    split at h
    · exact (Option.some.inj h).symm
    · cases h

omit [DecidableEq K] in
theorem flatten_set_replicate (n j : Nat) (hj : j < n) (c : Chain K V) :
    ((List.replicate n ([] : Chain K V)).set j c).flatten = c := by
  induction n generalizing j with
  | zero => omega
  | succ n ih =>
    cases j with
    | zero => simp [List.replicate_succ]
    | succ j =>
      rw [List.replicate_succ, List.set_cons_succ, List.flatten_cons, List.nil_append]
      exact ih j (by omega)

omit [DecidableEq K] in
theorem take_flatten_set_replicate_of_lt (n b j : Nat) (hj : b < j) (c : Chain K V) :
    (((List.replicate n ([] : Chain K V)).set j c).take b).flatten = [] := by
  rw [List.take_set_of_lt _ _ hj, List.take_replicate, List.flatten_replicate_nil]

omit [DecidableEq K] in
theorem rehash_set_replicate (t : HashTable K V) (c j : Nat) (chain : Chain K V)
    (ht : t.table_ = (List.replicate c []).set j chain) (hc : t.capacity_ = c)
    (hj : INT_MAX + 1 < j) (n : Nat) (hn : 1 ≤ n) :
    t.rehash n = .ok { t with table_ := List.replicate n [], capacity_ := n } := by
  rw [rehash_eq t (by rw [ht, hc, List.length_set, List.length_replicate]) n hn, ht,
    take_flatten_set_replicate_of_lt _ _ _ hj, bucketize_nil]

omit [DecidableEq K] in
theorem rehash_set_replicate_table (t : HashTable K V) (c j : Nat) (chain : Chain K V)
    (ht : t.table_ = (List.replicate c []).set j chain) (hc : t.capacity_ = c)
    (hj : INT_MAX + 1 < j) (n : Nat) (hn : 1 ≤ n) :
    ∃ t1, t.rehash n = .ok t1 ∧ t1.table_ = List.replicate n [] :=
  ⟨_, rehash_set_replicate t c j chain ht hc hj n hn, rfl⟩

theorem run_insert (t t1 : HashTable K V) (k : K) (v : V) (h : t.insert k v = .ok t1) :
    t.run [Op.insert k v] = .ok t1 := by
  simp only [HashTable.run, HashTable.step, h]

end DropLemmas

/-! ## Appending to a chain -/

section AppendLemmas

theorem put_of_not_mem [DecidableEq K] (k : K) (v : V) (c : Chain K V)
    (h : k ∉ c.map Node.key_) : put k v c = c ++ [⟨k, v⟩] := by
  rw [put_eq_scan, scan_of_not_mem k c h]

theorem grown_of_capacity_eq (t : HashTable K V) (hcap : 1 ≤ t.capacity_)
    (h : t.grown.capacity_ = t.capacity_) : t.grown = t := by
  rw [capacity_grown] at h
  unfold HashTable.grown
  split
  · rename_i hgt
    rw [if_pos hgt] at h
    omega
  · rfl

end AppendLemmas

/-! ## The load-factor bound -/

section BoundLemmas
variable [DecidableEq K]

theorem size_erased_le (t : HashTable K V) (hI : t.Inv) (k : K) :
    (t.erased k).size_ ≤ t.size_ := by
  unfold HashTable.erased
  split
  · rename_i hmem
    have h1 := length_eraseP_key k _ hmem
    have h2 := length_le_sum t.table_ (t.hasher_ k % t.capacity_)
      (by rw [hI.length_eq]; exact Nat.mod_lt _ hI.cap_pos)
    rw [getElem?_chainOf t hI.length_eq hI.cap_pos k] at h2
    simp only [Option.getD_some] at h2
    have h3 := hI.size_le
    have h4 : t.size_ ≠ 0 := by omega
    simp only [decr, if_neg h4]
    omega
  · exact le_refl _

theorem size_stored_le (t : HashTable K V) (k : K) (v : V) :
    (t.stored k v).size_ ≤ t.size_ + 1 := by
  rw [size_stored]
  split <;> omega

omit [DecidableEq K] in
theorem bound_grown (t : HashTable K V) (s0 : Nat) (hs0 : t.size_ ≤ s0 + 1)
    (hcap : 1 ≤ t.capacity_)
    (hd : roundDouble t.load_factor_ = t.load_factor_)
    (hb : roundDouble ((s0 : ℚ) / (t.capacity_ : ℚ)) ≤ t.load_factor_)
    (hh : 1 / 2 ≤ t.load_factor_ * t.capacity_) :
    roundDouble ((t.grown.size_ : ℚ) / (t.grown.capacity_ : ℚ)) ≤ t.grown.load_factor_ ∧
      1 / 2 ≤ t.grown.load_factor_ * t.grown.capacity_ := by
  have hcq : (0 : ℚ) < t.capacity_ := by exact_mod_cast hcap
  have hsq : (t.size_ : ℚ) ≤ (s0 : ℚ) + 1 := by exact_mod_cast hs0
  unfold HashTable.grown
  split
  · simp only [Nat.cast_mul, Nat.cast_ofNat]
    refine ⟨?_, by linarith⟩
    have h2c : (0 : ℚ) < (t.capacity_ : ℚ) * 2 := by linarith
    by_cases hz : s0 = 0
    · subst hz
      simp only [Nat.cast_zero, zero_add] at hsq
      have hle : (t.size_ : ℚ) / ((t.capacity_ : ℚ) * 2) ≤ t.load_factor_ := by
        rw [div_le_iff₀ h2c]
        linarith
      have := roundDouble_mono hle
      rwa [hd] at this
    · have hs1 : (1 : ℚ) ≤ (s0 : ℚ) := by
        have : 1 ≤ s0 := by omega
        exact_mod_cast this
      have hle : (t.size_ : ℚ) / ((t.capacity_ : ℚ) * 2) ≤ (s0 : ℚ) / (t.capacity_ : ℚ) := by
        rw [div_le_div_iff₀ h2c hcq]
        nlinarith
      exact le_trans (roundDouble_mono hle) hb
  · rename_i hgt
    exact ⟨not_lt.mp hgt, hh⟩

theorem bound_step (t : HashTable K V) (hI : t.Inv)
    (hd : roundDouble t.load_factor_ = t.load_factor_)
    (hb : roundDouble ((t.size_ : ℚ) / (t.capacity_ : ℚ)) ≤ t.load_factor_)
    (hh : 1 / 2 ≤ t.load_factor_ * t.capacity_) (o : Op K V) :
    ∃ t1, t.step o = .ok t1 ∧ t1.Inv ∧ roundDouble t1.load_factor_ = t1.load_factor_ ∧
      roundDouble ((t1.size_ : ℚ) / (t1.capacity_ : ℚ)) ≤ t1.load_factor_ ∧
      1 / 2 ≤ t1.load_factor_ * t1.capacity_ := by
  cases o with
  | insert k v =>
    refine ⟨_, insert_ok t hI k v, Inv_grown _ (Inv_stored t hI k v), ?_, ?_⟩
    · rw [load_factor_grown]
      exact hd
    · exact bound_grown (t.stored k v) t.size_ (size_stored_le t k v) hI.cap_pos hd hb hh
  | erase k =>
    have h2 : (t.erased k).load_factor_ = t.load_factor_ := by
      unfold HashTable.erased; split <;> rfl
    have h3 : (t.erased k).capacity_ = t.capacity_ := by
      unfold HashTable.erased; split <;> rfl
    refine ⟨_, erase_ok t hI k, Inv_erased t hI k, ?_, ?_, ?_⟩
    · rw [h2]; exact hd
    · have h1 : ((t.erased k).size_ : ℚ) ≤ t.size_ := by exact_mod_cast size_erased_le t hI k
      have hcq : (0 : ℚ) ≤ t.capacity_ := Nat.cast_nonneg _
      rw [h2, h3]
      exact le_trans (roundDouble_mono (div_le_div_of_nonneg_right h1 hcq)) hb
    · rw [h2, h3]
      exact hh

theorem bound_run (ops : List (Op K V)) (t : HashTable K V) (hI : t.Inv)
    (hd : roundDouble t.load_factor_ = t.load_factor_)
    (hb : roundDouble ((t.size_ : ℚ) / (t.capacity_ : ℚ)) ≤ t.load_factor_)
    (hh : 1 / 2 ≤ t.load_factor_ * t.capacity_) :
    ∃ t1, t.run ops = .ok t1 ∧
      roundDouble ((t1.size_ : ℚ) / (t1.capacity_ : ℚ)) ≤ t1.load_factor_ := by
  induction ops generalizing t with
  | nil => exact ⟨t, rfl, hb⟩
  | cons o os ih =>
    obtain ⟨t1, h1, hI1, hd1, hb1, hh1⟩ := bound_step t hI hd hb hh o
    obtain ⟨t2, h2, hr2⟩ := ih t1 hI1 hd1 hb1 hh1
    exact ⟨t2, by simp only [HashTable.run, h1, h2], hr2⟩

end BoundLemmas


/-! ## The claims -/

section Claims
variable [DecidableEq K]

/-- C1, at the failing input: the constructor called with capacity 2^31 + 8 = 2147483656,
load factor 2^-40 and the identity as hasher, then `insert(3, 0)`, gives a reachable table
`t` of capacity 2^32 + 16.  On it `insert(2147483653, 7)` followed by the empty sequence of
calls runs to its end, and `find(2147483653)` on the result reports absence: the call grew
the table, and the growth loop, which counts with an `int`, stopped before slot
2147483653. -/
theorem insert_then_find_lost :
    ∃ t t1 : HashTable Nat Nat,
      (HashTable.init 2147483656 (1 / 2 ^ 40) id).run [Op.insert 3 0] = .ok t ∧
      t.Reachable ∧ t.capacity = 4294967312 ∧
      t.run (Op.insert 2147483653 7 :: []) = .ok t1 ∧
      t1.find 2147483653 = .ok none := by
  have hlf := load_factor_init_of_range (V := Nat) 2147483656 (1 / 2 ^ 40) (id : Nat → Nat)
    (by norm_num) (by norm_num)
  have hI0 := Inv_init (V := Nat) 2147483656 (1 / 2 ^ 40) (id : Nat → Nat) (by norm_num)
  obtain ⟨t, ht, hI, hcap, _, hl, hh, _, _, _⟩ :=
    insert_grows (HashTable.init 2147483656 (1 / 2 ^ 40) id : HashTable Nat Nat) hI0 3 0 (-32)
      (by
        show (2 : ℚ) ^ (-32 : ℤ) ≤ 1 / ((2147483656 : ℕ) : ℚ)
        norm_num)
      (by rw [hlf]; norm_num)
  have hc : t.capacity_ = 4294967312 := hcap
  have hrun := run_insert _ t 3 0 ht
  obtain ⟨t1, ht1, _, _, _, _, _, _, _, hdrop⟩ :=
    insert_grows t hI 2147483653 7 (-33)
      (by rw [hc]; norm_num)
      (by rw [hl, hlf]; norm_num)
  refine ⟨t, t1, hrun, ⟨2147483656, 1 / 2 ^ 40, id, [Op.insert 3 0], by norm_num, ?_, hrun⟩,
    hc, ?_, ?_⟩
  · rw [hlf]
    exact roundDouble_tiny
  · exact run_insert t t1 2147483653 7 ht1
  · apply hdrop
    rw [hh, hc]
    decide

/-- C2, at the failing input: on the empty table of capacity 2^31 + 8 = 2147483656 with
load factor 2^-40 and the identity as hasher (a reachable table), `insert(2147483653, 10)`
followed by `insert(2147483653, 20)` succeeds; `find(2147483653)` then reports absence
instead of returning 20, and the size is 2, not the 1 it was after the first insert: each
call grows the table and the growth loop, which counts with an `int`, leaves the node of
slot 2147483653 behind. -/
theorem insert_twice_counted_twice :
    ∃ t1 t2 : HashTable Nat Nat,
      (HashTable.init 2147483656 (1 / 2 ^ 40) id : HashTable Nat Nat).Reachable ∧
      (HashTable.init 2147483656 (1 / 2 ^ 40) id).insert 2147483653 10 = .ok t1 ∧
      t1.insert 2147483653 20 = .ok t2 ∧
      t2.find 2147483653 = .ok none ∧ t1.size = 1 ∧ t2.size = 2 ∧
      ¬ (t2.size = t1.size) := by
  have hlf := load_factor_init_of_range (V := Nat) 2147483656 (1 / 2 ^ 40) (id : Nat → Nat)
    (by norm_num) (by norm_num)
  have hI0 := Inv_init (V := Nat) 2147483656 (1 / 2 ^ 40) (id : Nat → Nat) (by norm_num)
  obtain ⟨t1, ht1, hI1, hcap, hsz1, hl, hh, _, _, hdrop1⟩ :=
    insert_grows (HashTable.init 2147483656 (1 / 2 ^ 40) id : HashTable Nat Nat) hI0
      2147483653 10 (-32)
      (by
        show (2 : ℚ) ^ (-32 : ℤ) ≤ 1 / ((2147483656 : ℕ) : ℚ)
        norm_num)
      (by rw [hlf]; norm_num)
  have hc : t1.capacity_ = 4294967312 := hcap
  have hs1 : t1.size_ = 1 := by
    rw [hsz1, size_stored, chainOf_init]
    rfl
  have hf1 : t1.find 2147483653 = .ok none := hdrop1 2147483653 (by decide)
  obtain ⟨t2, ht2, _, _, hsz2, _, _, _, _, hdrop2⟩ :=
    insert_grows t1 hI1 2147483653 20 (-33)
      (by rw [hc]; norm_num)
      (by rw [hl, hlf]; norm_num)
  have hs2 : t2.size_ = 2 := by
    rw [find_ok t1 hI1] at hf1
    rw [hsz2, size_stored, Except.ok.inj hf1, hs1]
    rfl
  refine ⟨t1, t2, ⟨2147483656, 1 / 2 ^ 40, id, [], by norm_num, ?_, rfl⟩, ht1, ht2, ?_, hs1,
    hs2, ?_⟩
  · rw [hlf]
    exact roundDouble_tiny
  · apply hdrop2
    rw [hh, hc]
    decide
  · simp only [HashTable.size, hs1, hs2]
    decide

/-- C3, at the failing input: the constructor called with capacity 1 and load factor 1/4
(any hasher), then one `insert` of a new key.  The call succeeds with size 1 and, after the
single doubling, capacity 2, so `size / capacity = 1/2` exceeds the load factor 1/4. -/
theorem load_factor_exceeded (h : K → Nat) (k : K) (v : V) :
    ∃ t1, (HashTable.init 1 (1 / 4) h).insert k v = .ok t1 ∧ t1.size = 1 ∧ t1.capacity = 2 ∧
      t1.load_factor_ = 1 / 4 ∧ ¬ ((t1.size : ℚ) / (t1.capacity : ℚ) ≤ t1.load_factor_) := by
  have hI := Inv_init (V := V) 1 (1 / 4) h (le_refl 1)
  have hlf : (HashTable.init 1 (1 / 4) h : HashTable K V).load_factor_ = 1 / 4 := by
    norm_num [HashTable.init]
  have hsz : ((HashTable.init 1 (1 / 4) h : HashTable K V).stored k v).size_ = 1 := by
    rw [size_stored, chainOf_init]
    rfl
  have hst : ((HashTable.init 1 (1 / 4) h : HashTable K V).stored k v).load_factor_ = 1 / 4 :=
    hlf
  have hcp : ((HashTable.init 1 (1 / 4) h : HashTable K V).stored k v).capacity_ = 1 := rfl
  have hcg : ((HashTable.init 1 (1 / 4) h : HashTable K V).stored k v).grown.capacity_ = 2 := by
    rw [capacity_grown, hsz, hst, hcp, if_pos]
    norm_num [roundDouble_one]
  refine ⟨_, insert_ok _ hI k v, ?_, hcg, ?_, ?_⟩
  · simp only [HashTable.size, size_grown, hsz]
  · rw [load_factor_grown, hst]
  · simp only [HashTable.size, HashTable.capacity, size_grown, hcg, load_factor_grown, hsz, hst]
    norm_num

/-- C4, counterexample: on the reachable table `overloaded` (capacity 2, load factor 1/4,
key 0 present), `insert(0, 5)` triggers growth, capacity 2 becoming 4, although it adds no
entry: the size stays 1 and is not the old size plus one. -/
theorem growth_without_new_entry :
    ∃ t2 : HashTable Nat Nat,
      (HashTable.init 1 (1 / 4) id).run [Op.insert 0 0] = .ok overloaded ∧
      overloaded.find 0 = .ok (some 0) ∧
      overloaded.insert 0 5 = .ok t2 ∧
      overloaded.capacity = 2 ∧ overloaded.size = 1 ∧
      t2.table_ = [[⟨0, 5⟩], [], [], []] ∧ t2.capacity = 4 ∧ t2.size = 1 ∧
      t2.capacity = 2 * overloaded.capacity ∧ ¬ (t2.size = overloaded.size + 1) := by
  refine ⟨⟨[[⟨0, 5⟩], [], [], []], id, 1 / 4, 1, 4⟩, ?_, rfl, ?_, rfl, rfl, rfl, rfl, rfl,
    rfl, by decide⟩
  · simp [overloaded, HashTable.run, HashTable.step, HashTable.insert, HashTable.slot,
      HashTable.init, HashTable.growIfNeeded, HashTable.rehash, HashTable.rehashSlots,
      HashTable.rehashChain, HashTable.insertNode, walk, List.range, List.range.loop,
      INT_MAX, roundDouble_one]
    norm_num
  · simp [overloaded, HashTable.insert, HashTable.slot, HashTable.growIfNeeded,
      HashTable.rehash, HashTable.rehashSlots, HashTable.rehashChain, HashTable.insertNode,
      walk, List.range, List.range.loop, scan, INT_MAX, roundDouble_half, roundDouble_inv_two]
    norm_num

/-- C4, amended: on a reachable table, an `insert(k, v)` that triggers growth doubles the
capacity and leaves the size at the old size plus one when `k` was absent and at the old
size when `k` was present; when the table had at most `INT_MAX + 1` slots before the call,
`find` of every other key is as it was and `find(k)` returns `v`.  With capacity 4 and load
factor 1/2, three distinct keys inserted into the empty table end at capacity 8 with all
three values found. -/
theorem growth_keeps_entries (t : HashTable K V) (hr : t.Reachable) (k : K) (v : V)
    (hgrow : ∃ t1, t.insert k v = .ok t1 ∧ t1.capacity ≠ t.capacity) :
    (∃ t1, t.insert k v = .ok t1 ∧ t1.capacity = 2 * t.capacity ∧
      (t.capacity ≤ INT_MAX + 1 →
        (∀ k2, k2 ≠ k → t1.find k2 = t.find k2) ∧ t1.find k = .ok (some v)) ∧
      (t.find k = .ok none → t1.size = t.size + 1) ∧
      (∀ v0, t.find k = .ok (some v0) → t1.size = t.size)) ∧
    (∀ (h : K → Nat) (a b c : K) (v1 v2 v3 : V), a ≠ b → a ≠ c → b ≠ c →
      ∃ t3, (HashTable.init 4 (1 / 2) h).run [Op.insert a v1, Op.insert b v2, Op.insert c v3] =
          .ok t3 ∧
        t3.capacity = 8 ∧ t3.find a = .ok (some v1) ∧ t3.find b = .ok (some v2) ∧
        t3.find c = .ok (some v3)) := by
  have hI := Inv_of_reachable t hr
  constructor
  · obtain ⟨t1, h1, hcap⟩ := hgrow
    refine ⟨t1, h1, ?_, ?_, ?_, ?_⟩
    · rcases insert_capacity t t1 k v h1 with h2 | h2
      · exact absurd h2 hcap
      · exact h2
    · intro hle
      rw [insert_ok t hI k v] at h1
      cases h1
      refine ⟨fun k2 hk2 => ?_, ?_⟩
      · rw [find_inserted_of_le t hI k v k2 hle, if_neg hk2]
      · rw [find_inserted_of_le t hI k v k hle, if_pos rfl]
    · intro hnone
      rw [insert_ok t hI k v] at h1
      cases h1
      rw [find_ok t hI] at hnone
      have hl := Except.ok.inj hnone
      simp only [HashTable.size, size_grown, size_stored, hl, Option.isSome_none,
        Bool.false_eq_true, if_false]
    · intro v0 hsome
      rw [insert_ok t hI k v] at h1
      cases h1
      rw [find_ok t hI] at hsome
      have hl := Except.ok.inj hsome
      simp only [HashTable.size, size_grown, size_stored, hl, Option.isSome_some, if_true]
  · intro h a b c v1 v2 v3 hab hac hbc
    have hI0 := Inv_init (V := V) 4 (1 / 2) h (by decide)
    have hlf : (HashTable.init 4 (1 / 2) h : HashTable K V).load_factor_ = 1 / 2 := by
      norm_num [HashTable.init]
    have hfind : ∀ k, (HashTable.init 4 (1 / 2) h : HashTable K V).find k = .ok none := by
      intro k
      rw [find_ok _ hI0, chainOf_init]
      rfl
    obtain ⟨t1, h1, hI1, hs1, hc1, hl1, hf1⟩ :=
      insert_new_no_growth (HashTable.init 4 (1 / 2) h : HashTable K V) hI0 a v1 (1 / 4)
        (hfind a) (by norm_num [HashTable.init]) (by rw [hlf, roundDouble_quarter]; norm_num)
    have hs1n : t1.size_ = 1 := hs1
    have hc1n : t1.capacity_ = 4 := hc1
    rw [hlf] at hl1
    obtain ⟨t2, h2, hI2, hs2, hc2, hl2, hf2⟩ :=
      insert_new_no_growth t1 hI1 b v2 (1 / 2)
        (by rw [hf1, if_neg (Ne.symm hab)]; exact hfind b)
        (by rw [hs1n, hc1n]; norm_num) (by rw [hl1, roundDouble_half])
    rw [hs1n] at hs2
    rw [hc1n] at hc2
    rw [hl1] at hl2
    have hf2c : t2.find c = .ok none := by
      rw [hf2, if_neg (Ne.symm hbc), hf1, if_neg (Ne.symm hac)]
      exact hfind c
    have hs3 : (t2.stored c v3).size_ = 3 := by
      rw [find_ok t2 hI2] at hf2c
      rw [size_stored, Except.ok.inj hf2c, hs2]
      rfl
    obtain ⟨t3, h3, _, hc3, _, _, _, _, hkeep, _⟩ :=
      insert_grows_of_gt t2 hI2 c v3
        (by rw [hs3, hc2, hl2]; norm_num [roundDouble_three_quarters])
    have hslot : ∀ k2, t2.hasher_ k2 % t2.capacity_ < INT_MAX + 1 := by
      intro k2
      have := Nat.mod_lt (t2.hasher_ k2) hI2.cap_pos
      rw [hc2] at this ⊢
      unfold INT_MAX
      omega
    refine ⟨t3, ?_, ?_, ?_, ?_, ?_⟩
    · simp only [HashTable.run, HashTable.step, h1, h2, h3]
    · simp only [HashTable.capacity, hc3, hc2]
    · rw [hkeep a (hslot a), if_neg hac, hf2, if_neg hab, hf1, if_pos rfl]
    · rw [hkeep b (hslot b), if_neg hbc, hf2, if_pos rfl]
    · rw [hkeep c (hslot c), if_pos rfl]

/-- Witness of C4 (amended): the table `twoKeys` of capacity 4 and load factor 1/2 holds
two keys; `insert(3, 3)` is the third, triggers growth to capacity 8 and brings the size
to 3. -/
theorem growth_keeps_entries_witness :
    ∃ t1, twoKeys.insert 3 3 = .ok t1 ∧ t1.capacity = 2 * twoKeys.capacity ∧
      (∀ k2, k2 ≠ 3 → t1.find k2 = twoKeys.find k2) ∧ t1.find 3 = .ok (some 3) ∧
      t1.size = twoKeys.size + 1 := by
  obtain ⟨t1, h1, h2, h3, h4, _⟩ :=
    (growth_keeps_entries twoKeys twoKeys_reachable 3 3
      ⟨⟨[[], [⟨1, 1⟩], [⟨2, 2⟩], [⟨3, 3⟩], [], [], [], []], id, 1 / 2, 3, 8⟩, by
        simp [twoKeys, HashTable.insert, HashTable.slot, HashTable.growIfNeeded,
          HashTable.rehash, HashTable.rehashSlots, HashTable.rehashChain,
          HashTable.insertNode, walk, List.range, List.range.loop, INT_MAX,
          roundDouble_three_quarters]
        norm_num, by decide⟩).1
  exact ⟨t1, h1, h2, (h3 (by decide)).1, (h3 (by decide)).2, h4 rfl⟩

/-- C5, capacity changes only by doubling and only in `insert`: whatever the table, a
completed `erase` leaves the capacity as it was and a completed `insert` leaves it as it
was or exactly doubled; `find` returns no table at all.  On every table with at least one
slot and as many slots as its capacity says, both calls do complete. -/
theorem capacity_only_doubles (t : HashTable K V) (k : K) (v : V) :
    (∀ t1, t.erase k = .ok t1 → t1.capacity = t.capacity) ∧
    (∀ t1, t.insert k v = .ok t1 → t1.capacity = t.capacity ∨ t1.capacity = 2 * t.capacity) ∧
    (t.table_.length = t.capacity → 1 ≤ t.capacity →
      (∃ t1, t.erase k = .ok t1) ∧ (∃ t1, t.insert k v = .ok t1) ∧
      ∃ r, t.find k = .ok r) := by
  refine ⟨fun t1 h => erase_capacity t t1 k h, fun t1 h => insert_capacity t t1 k v h, ?_⟩
  intro hlen hcap
  refine ⟨⟨_, erase_eq t hlen hcap k⟩, ?_, ⟨_, find_eq t hlen hcap k⟩⟩
  rw [insert_eq t hlen hcap]
  unfold HashTable.growIfNeeded
  split
  · have hlen2 : (t.stored k v).table_.length = (t.stored k v).capacity_ := by
      simp only [HashTable.stored, List.length_set]
      exact hlen
    exact ⟨_, rehash_eq _ hlen2 _ (by
      have : (t.stored k v).capacity_ = t.capacity_ := rfl
      simp only [HashTable.capacity] at hcap
      omega)⟩
  · exact ⟨_, rfl⟩

/-- Witness of C5: on `twoKeys` the calls `erase(1)` and `insert(1, 9)` complete, the first
with capacity 4, the second with capacity 4 or 8. -/
theorem capacity_only_doubles_witness :
    (∃ t1, twoKeys.erase 1 = .ok t1 ∧ t1.capacity = twoKeys.capacity) ∧
    (∃ t1, twoKeys.insert 1 9 = .ok t1 ∧
      (t1.capacity = twoKeys.capacity ∨ t1.capacity = 2 * twoKeys.capacity)) :=
  have h := capacity_only_doubles twoKeys 1 9
  have hok := h.2.2 rfl (by decide)
  ⟨⟨hok.1.choose, hok.1.choose_spec, h.1 _ hok.1.choose_spec⟩,
   ⟨hok.2.1.choose, hok.2.1.choose_spec, h.2.1 _ hok.2.1.choose_spec⟩⟩

/-- C6, counterexample: on the reachable table `overloaded8` (capacity 4, load factor 1/8)
key 3 is present, and `insert(3, 9)` still runs the growth test and doubles the capacity
to 8. -/
theorem overwrite_grows :
    ∃ t2 : HashTable Nat Nat,
      (HashTable.init 2 (1 / 8) id).run [Op.insert 3 7] = .ok overloaded8 ∧
      overloaded8.find 3 = .ok (some 7) ∧
      overloaded8.insert 3 9 = .ok t2 ∧
      overloaded8.capacity = 4 ∧ overloaded8.size = 1 ∧
      t2.table_ = [[], [], [], [⟨3, 9⟩], [], [], [], []] ∧ t2.capacity = 8 ∧ t2.size = 1 ∧
      t2.size = overloaded8.size ∧ ¬ (t2.capacity = overloaded8.capacity) := by
  refine ⟨⟨[[], [], [], [⟨3, 9⟩], [], [], [], []], id, 1 / 8, 1, 8⟩, ?_, rfl, ?_, rfl, rfl,
    rfl, rfl, rfl, rfl, by decide⟩
  · simp [overloaded8, HashTable.run, HashTable.step, HashTable.insert, HashTable.slot,
      HashTable.init, HashTable.growIfNeeded, HashTable.rehash, HashTable.rehashSlots,
      HashTable.rehashChain, HashTable.insertNode, walk, List.range, List.range.loop,
      INT_MAX, roundDouble_half, roundDouble_inv_two]
    norm_num
  · simp [overloaded8, HashTable.insert, HashTable.slot, HashTable.growIfNeeded,
      HashTable.rehash, HashTable.rehashSlots, HashTable.rehashChain, HashTable.insertNode,
      walk, List.range, List.range.loop, scan, INT_MAX, roundDouble_quarter,
      roundDouble_inv_four]
    norm_num

/-- C6, amended: on a reachable table, `insert(k, v)` of a key that is present overwrites
the value of its node where it stands in the chain and then runs the growth test that ends
every `insert`.  The call succeeds, the size is unchanged, and the capacity is unchanged
whenever `size / capacity` was at most the load factor before the call; in that case, and
whenever the table has at most `INT_MAX + 1` slots, `find(k)` then returns `v` and every
other key is found as before. -/
theorem insert_existing (t : HashTable K V) (hr : t.Reachable) (k : K) (v v0 : V)
    (hfound : t.find k = .ok (some v0)) :
    ∃ t1, t.insert k v = .ok t1 ∧
      (t.capacity ≤ INT_MAX + 1 ∨ (t.size : ℚ) / (t.capacity : ℚ) ≤ t.load_factor_ →
        t1.find k = .ok (some v) ∧ ∀ k2, k2 ≠ k → t1.find k2 = t.find k2) ∧
      t1.size = t.size ∧
      ((t.size : ℚ) / (t.capacity : ℚ) ≤ t.load_factor_ → t1.capacity = t.capacity) ∧
      ∃ pre e post, t.chainOf k = pre ++ e :: post ∧ e.key_ = k ∧ e.value_ = v0 ∧
        (∀ n ∈ pre, n.key_ ≠ k) ∧
        t.insert k v =
          HashTable.growIfNeeded
            { t with
              table_ := t.table_.set (t.hasher_ k % t.capacity_)
                (pre ++ ⟨e.key_, v⟩ :: post) } := by
  have hI := Inv_of_reachable t hr
  have hd := double_of_reachable t hr
  rw [find_ok t hI] at hfound
  have hl := Except.ok.inj hfound
  have hmem : k ∈ (t.chainOf k).map Node.key_ := (lookup_isSome_iff k _).mp ⟨v0, hl⟩
  have hsz : (t.stored k v).size_ = t.size_ := by
    rw [size_stored, hl]
    rfl
  have hng : (t.size_ : ℚ) / (t.capacity_ : ℚ) ≤ t.load_factor_ →
      ¬ roundDouble (((t.stored k v).size_ : ℚ) / (t.capacity_ : ℚ)) > t.load_factor_ := by
    intro hle
    rw [hsz]
    have := roundDouble_mono hle
    rw [hd] at this
    exact not_lt.mpr this
  have hall : t.capacity ≤ INT_MAX + 1 ∨ (t.size : ℚ) / (t.capacity : ℚ) ≤ t.load_factor_ →
      ∀ k2, (t.stored k v).grown.find k2 = if k2 = k then .ok (some v) else t.find k2 := by
    intro hor k2
    rcases hor with hle | hle
    · exact find_inserted_of_le t hI k v k2 hle
    · exact find_inserted_of_not_gt t hI k v k2 (hng hle)
  refine ⟨_, insert_ok t hI k v, ?_, ?_, ?_, ?_⟩
  · intro hor
    refine ⟨?_, fun k2 hk2 => ?_⟩
    · rw [hall hor k, if_pos rfl]
    · rw [hall hor k2, if_neg hk2]
  · simp only [HashTable.size, size_grown, hsz]
  · intro hle
    simp only [HashTable.capacity, HashTable.size] at hle ⊢
    rw [grown_of_not_gt _ (hng hle)]
    rfl
  · obtain ⟨pre, e, post, hc, hek, hpre, hput, _, hlk⟩ := split_at_key k (t.chainOf k) hmem
    refine ⟨pre, e, post, hc, hek, ?_, hpre, ?_⟩
    · rw [hl] at hlk
      exact (Option.some.inj hlk).symm
    · rw [insert_eq t hI.length_eq hI.cap_pos]
      congr 1
      unfold HashTable.stored
      rw [if_pos hmem, hput v]

/-- Witness of C6 (amended): on `twoKeys` (size 2, capacity 4, load factor 1/2) key 1 is
present with value 1 and is overwritten with 9; the capacity stays 4. -/
theorem insert_existing_witness :
    ∃ t1, twoKeys.insert 1 9 = .ok t1 ∧ t1.find 1 = .ok (some 9) ∧
      t1.size = twoKeys.size ∧ t1.capacity = twoKeys.capacity := by
  obtain ⟨t1, h1, h2, h4, h5, _⟩ := insert_existing twoKeys twoKeys_reachable 1 9 1 (by rfl)
  exact ⟨t1, h1, (h2 (Or.inl (by decide))).1, h4,
    h5 (by norm_num [twoKeys, HashTable.size, HashTable.capacity])⟩

/-- C7, erase of an absent key and idempotence: on a reachable table, `erase(k)` of a key
that `find` reports absent returns the very same table (chains, size and capacity), and for
every key `erase(k)` succeeds and a second `erase(k)` returns what the first returned. -/
theorem erase_absent_and_twice (t : HashTable K V) (hr : t.Reachable) (k : K) :
    (t.find k = .ok none → t.erase k = .ok t) ∧
    ∃ t1, t.erase k = .ok t1 ∧ t1.erase k = .ok t1 := by
  have hI := Inv_of_reachable t hr
  have habs : ∀ (u : HashTable K V), u.Inv → u.find k = .ok none → u.erase k = .ok u := by
    intro u hu hf
    rw [find_ok u hu] at hf
    have hl := Except.ok.inj hf
    rw [erase_ok u hu]
    unfold HashTable.erased
    rw [if_neg ((lookup_eq_none_iff k _).mp hl)]
  refine ⟨habs t hI, t.erased k, erase_ok t hI k, ?_⟩
  apply habs _ (Inv_erased t hI k)
  rw [find_erased t hI, if_pos rfl]

/-- Witness of C7: on the empty table of capacity 4, `erase("z")` changes nothing. -/
theorem erase_absent_and_twice_witness :
    (HashTable.init 4 (1 / 2) String.length : HashTable String Nat).find "z" = .ok none ∧
    (HashTable.init 4 (1 / 2) String.length : HashTable String Nat).erase "z" =
      .ok (HashTable.init 4 (1 / 2) String.length) ∧
    (HashTable.init 4 (1 / 2) String.length : HashTable String Nat).size = 0 :=
  ⟨rfl,
   (erase_absent_and_twice (HashTable.init 4 (1 / 2) String.length)
      ⟨4, 1 / 2, String.length, [], by decide, by
        norm_num [HashTable.init, roundDouble_half, roundDouble_inv_two], rfl⟩ "z").1 rfl,
   rfl⟩

/-- C8, erase of a present key: on a reachable table where `find(k)` returns `v`,
`erase(k)` succeeds; afterwards `find(k)` reports absence, the size is one less, the
capacity is the same, and the table differs only in the slot of `k`, whose chain
`pre ++ e :: post` (with `e` the one node of key `k`) has become `pre ++ post`. -/
theorem erase_present (t : HashTable K V) (hr : t.Reachable) (k : K) (v : V)
    (hfound : t.find k = .ok (some v)) :
    ∃ t1, t.erase k = .ok t1 ∧ t1.find k = .ok none ∧ t1.size + 1 = t.size ∧
      t1.capacity = t.capacity ∧
      ∃ pre e post, t.chainOf k = pre ++ e :: post ∧ e.key_ = k ∧ e.value_ = v ∧
        (∀ n ∈ pre ++ post, n.key_ ≠ k) ∧
        t1.table_ = t.table_.set (t.hasher_ k % t.capacity_) (pre ++ post) ∧
        t1.chainOf k = pre ++ post := by
  have hI := Inv_of_reachable t hr
  rw [find_ok t hI] at hfound
  have hl := Except.ok.inj hfound
  have hmem : k ∈ (t.chainOf k).map Node.key_ := (lookup_isSome_iff k _).mp ⟨v, hl⟩
  have hIe := Inv_erased t hI k
  obtain ⟨pre, e, post, hc, hek, _, _, her, hlk⟩ := split_at_key k (t.chainOf k) hmem
  have hnot := not_mem_keys_eraseP k _ (nodup_chainOf t hI k)
  have htab : (t.erased k).table_ = t.table_.set (t.hasher_ k % t.capacity_) (pre ++ post) := by
    unfold HashTable.erased
    rw [if_pos hmem, her]
  refine ⟨_, erase_ok t hI k, ?_, ?_, ?_, pre, e, post, hc, hek, ?_, ?_, htab, ?_⟩
  · rw [find_erased t hI, if_pos rfl]
  · have h1 := length_eraseP_key k _ hmem
    have h2 := length_le_sum t.table_ (t.hasher_ k % t.capacity_)
      (by rw [hI.length_eq]; exact Nat.mod_lt _ hI.cap_pos)
    rw [getElem?_chainOf t hI.length_eq hI.cap_pos k] at h2
    simp only [Option.getD_some] at h2
    have h3 := hI.size_le
    have h4 : t.size_ ≠ 0 := by omega
    simp only [HashTable.size, HashTable.erased, if_pos hmem, decr, if_neg h4]
    omega
  · simp only [HashTable.capacity, HashTable.erased, if_pos hmem]
  · rw [hl] at hlk
    exact (Option.some.inj hlk).symm
  · intro n hn hnk
    rw [her] at hnot
    apply hnot
    rw [List.mem_map]
    exact ⟨n, hn, hnk⟩
  · rw [chainOf_erased t hI, if_pos rfl, her]

/-- Witness of C8: in `oneChain` the keys 1, 5 and 9 share slot 1; `erase(5)` takes the
middle node out of the chain. -/
theorem erase_present_witness :
    ∃ t1, oneChain.erase 5 = .ok t1 ∧ t1.find 5 = .ok none ∧ t1.size + 1 = oneChain.size ∧
      t1.capacity = oneChain.capacity ∧
      ∃ pre e post, oneChain.chainOf 5 = pre ++ e :: post ∧ e.key_ = 5 ∧ e.value_ = 50 ∧
        (∀ n ∈ pre ++ post, n.key_ ≠ 5) ∧
        t1.table_ = oneChain.table_.set (oneChain.hasher_ 5 % oneChain.capacity_) (pre ++ post) ∧
        t1.chainOf 5 = pre ++ post :=
  erase_present oneChain oneChain_reachable 5 50 rfl

omit [DecidableEq K] in
/-- C9, index access: whatever the table, `operator[](i)` throws `out_of_range` exactly
when `i >= capacity` and throws `runtime_error` exactly when `i < capacity` and slot `i` is
empty; on a table whose slot array has as many slots as its capacity says (every
constructed table, a capacity of 0 included) the only other outcome is that slot `i` has a
head node and that node is returned; `at(i)` has the same outcome as `operator[](i)`. -/
theorem subscript_outcome (t : HashTable K V) (i : Nat) :
    (t.subscript i = .error .out_of_range ↔ i ≥ t.capacity) ∧
    (t.subscript i = .error .runtime_error ↔ i < t.capacity ∧ t.table_[i]? = some []) ∧
    (t.table_.length = t.capacity → ¬ i ≥ t.capacity →
      ¬ (i < t.capacity ∧ t.table_[i]? = some []) →
      ∃ n rest, t.table_[i]? = some (n :: rest) ∧ t.subscript i = .ok n) ∧
    t.at_ i = t.subscript i := by
  simp only [HashTable.capacity]
  by_cases hi : i ≥ t.capacity_
  · have hs : t.subscript i = .error .out_of_range := by
      unfold HashTable.subscript
      rw [if_pos hi]
    refine ⟨by simp [hs, hi], ?_, fun _ h => absurd hi h, rfl⟩
    rw [hs]
    constructor
    · intro h; cases h
    · intro h; omega
  · cases hget : t.table_[i]? with
    | none =>
      have hs : t.subscript i = .error .outOfBounds := by
        unfold HashTable.subscript
        rw [if_neg hi, hget]
      refine ⟨?_, ?_, ?_, rfl⟩
      · rw [hs]
        constructor
        · intro h; cases h
        · intro h; exact absurd h hi
      · rw [hs]
        constructor
        · intro h; cases h
        · intro h; cases h.2
      · intro hlen _ _
        rw [List.getElem?_eq_none_iff] at hget
        omega
    | some c =>
      cases c with
      | nil =>
        have hs : t.subscript i = .error .runtime_error := by
          unfold HashTable.subscript
          rw [if_neg hi, hget]
        refine ⟨?_, ?_, ?_, rfl⟩
        · rw [hs]
          constructor
          · intro h; cases h
          · intro h; exact absurd h hi
        · rw [hs]
          simp only [true_iff]
          exact ⟨by omega, trivial⟩
        · intro _ _ h
          exact absurd ⟨by omega, rfl⟩ h
      | cons n rest =>
        have hs : t.subscript i = .ok n := by
          unfold HashTable.subscript
          rw [if_neg hi, hget]
        refine ⟨?_, ?_, ?_, rfl⟩
        · rw [hs]
          constructor
          · intro h; cases h
          · intro h; exact absurd h hi
        · rw [hs]
          constructor
          · intro h; cases h
          · intro h
            have := h.2
            simp at this
        · intro _ _ _
          exact ⟨n, rest, rfl, hs⟩

/-- Witness of C9: on `twoKeys`, of capacity 4, index 4 is out of range, slot 0 is empty
and slot 1 has the head node 1 ↦ 1. -/
theorem subscript_outcome_witness :
    twoKeys.subscript 4 = .error .out_of_range ∧
    twoKeys.subscript 0 = .error .runtime_error ∧
    (∃ n rest, twoKeys.table_[1]? = some (n :: rest) ∧ twoKeys.subscript 1 = .ok n) ∧
    twoKeys.at_ 1 = twoKeys.subscript 1 :=
  ⟨(subscript_outcome twoKeys 4).1.mpr (by decide),
   (subscript_outcome twoKeys 0).2.1.mpr ⟨by decide, rfl⟩,
   (subscript_outcome twoKeys 1).2.2.1 rfl (by decide) (by simp [twoKeys]),
   (subscript_outcome twoKeys 1).2.2.2⟩

/-- C10, at the failing input: the constructor accepts a capacity of 0, and on the table
it builds `insert`, `find` and `erase` all compute `hasher_(key) % 0`, whatever the load
factor, hasher, key and value. -/
theorem zero_capacity_fails (lf : ℚ) (h : K → Nat) (k : K) (v : V) :
    (HashTable.init 0 lf h).insert k v = .error .divByZero ∧
    (HashTable.init 0 lf h : HashTable K V).find k = .error .divByZero ∧
    (HashTable.init 0 lf h : HashTable K V).erase k = .error .divByZero := by
  refine ⟨?_, ?_, ?_⟩
  · simp [HashTable.insert, HashTable.slot, HashTable.init]
  · simp [HashTable.find, HashTable.findNode, HashTable.slot, HashTable.init]
  · simp [HashTable.erase, HashTable.slot, HashTable.init]

/-- C11, construction: for every capacity `c` and load-factor argument `f` the
constructed table has size 0, capacity `c` and `c` slots, all empty, so with `c ≥ 1` every
`find` reports absence; its load factor is `f` when `0 < f ≤ 1` and 1/2 otherwise (1/2 for
`f = 3/2`), hence always in (0, 1]; and a completed `insert`, `erase`, `rehash` or run of
calls leaves the load factor of any table as it was. -/
theorem construction (c : Nat) (f : ℚ) (h : K → Nat) :
    (HashTable.init c f h : HashTable K V).size = 0 ∧
    (HashTable.init c f h : HashTable K V).capacity = c ∧
    (HashTable.init c f h : HashTable K V).table_ = List.replicate c [] ∧
    (1 ≤ c → ∀ k, (HashTable.init c f h : HashTable K V).find k = .ok none) ∧
    (HashTable.init c f h : HashTable K V).load_factor_ =
      (if 0 < f ∧ f ≤ 1 then f else 1 / 2) ∧
    (HashTable.init c (3 / 2) h : HashTable K V).load_factor_ = 1 / 2 ∧
    (0 < (HashTable.init c f h : HashTable K V).load_factor_ ∧
      (HashTable.init c f h : HashTable K V).load_factor_ ≤ 1) ∧
    (∀ (t t1 : HashTable K V) (k : K) (v : V),
      t.insert k v = .ok t1 → t1.load_factor_ = t.load_factor_) ∧
    (∀ (t t1 : HashTable K V) (k : K), t.erase k = .ok t1 → t1.load_factor_ = t.load_factor_) ∧
    (∀ (t t1 : HashTable K V) (n : Nat), t.rehash n = .ok t1 → t1.load_factor_ = t.load_factor_) ∧
    (∀ (ops : List (Op K V)) (t1 : HashTable K V),
      (HashTable.init c f h).run ops = .ok t1 →
        t1.load_factor_ = (if 0 < f ∧ f ≤ 1 then f else 1 / 2)) := by
  refine ⟨rfl, rfl, rfl, ?_, rfl, ?_, load_factor_init_range c f h,
    fun t t1 k v hi => insert_load_factor t t1 k v hi,
    fun t t1 k he => erase_load_factor t t1 k he,
    fun t t1 n hr => rehash_load_factor t t1 n hr,
    fun ops t1 hr => run_load_factor ops _ t1 hr⟩
  · intro hc k
    rw [find_eq _ (by simp [HashTable.init]) hc, chainOf_init]
    rfl
  · norm_num [HashTable.init]

/-- Witness of C11: capacity 4 and the invalid load factor 3/2; nothing is found, and after
`insert(1, 1)` the load factor is still 1/2. -/
theorem construction_witness :
    (HashTable.init 4 (3 / 2) id : HashTable Nat Nat).find 7 = .ok none ∧
    ∃ t1, (HashTable.init 4 (3 / 2) id : HashTable Nat Nat).insert 1 1 = .ok t1 ∧
      t1.load_factor_ = 1 / 2 := by
  have hc := construction (V := Nat) 4 (3 / 2) (id : Nat → Nat)
  obtain ⟨t1, h1⟩ : ∃ t1, (HashTable.init 4 (3 / 2) id : HashTable Nat Nat).insert 1 1 = .ok t1 :=
    ⟨_, insert_ok _ (Inv_init 4 (3 / 2) id (by decide)) 1 1⟩
  refine ⟨hc.2.2.2.1 (by decide) 7, t1, h1, ?_⟩
  rw [hc.2.2.2.2.2.2.2.1 _ t1 1 1 h1]
  exact hc.2.2.2.2.2.1

/-- C12, placement invariant: in every reachable table every node stored in the chain of
slot `i` has a key `K` with `hasher(K) mod capacity = i`, for the current capacity. -/
theorem placement_invariant (t : HashTable K V) (hr : t.Reachable) (i : Nat)
    (chain : Chain K V) (hslot : t.table_[i]? = some chain) (n : Node K V) (hn : n ∈ chain) :
    t.hasher_ n.key_ % t.capacity = i :=
  (Inv_of_reachable t hr).placed i chain hslot n hn

/-- Witness of C12: the node 5 ↦ 50 stands in slot 1 of `oneChain`, and 5 mod 4 = 1. -/
theorem placement_invariant_witness :
    oneChain.hasher_ (⟨5, 50⟩ : Node Nat Nat).key_ % oneChain.capacity = 1 :=
  placement_invariant oneChain oneChain_reachable 1 [⟨1, 10⟩, ⟨5, 50⟩, ⟨9, 90⟩] rfl ⟨5, 50⟩
    (by simp)

/-- C13, key uniqueness: in every reachable table the keys of all chains, concatenated in
slot order, have no duplicates. -/
theorem keys_unique (t : HashTable K V) (hr : t.Reachable) :
    (t.table_.flatten.map Node.key_).Nodup := by
  have hI := Inv_of_reachable t hr
  exact nodup_flatten_of_placed (fun k => t.hasher_ k % t.capacity_) t.table_ 0
    (by simpa using hI.placed) hI.nodup

/-- Witness of C13: the keys of `oneChain`. -/
theorem keys_unique_witness : (oneChain.table_.flatten.map Node.key_).Nodup :=
  keys_unique oneChain oneChain_reachable

/-- C14, at the failing input: the constructor called with capacity 2^31 + 8 = 2147483656,
load factor 2^-40 and the identity as hasher, then `insert(2147483653, 7)`.  The call
succeeds and leaves a reachable table of size 1 whose chains are all empty, so `size()` is
not the sum of the chain lengths: the growth loop, which counts with an `int`, did not
move the node of slot 2147483653 to the new slot array, and `size_` kept counting it. -/
theorem size_exceeds_entry_count :
    ∃ t : HashTable Nat Nat,
      (HashTable.init 2147483656 (1 / 2 ^ 40) id).run [Op.insert 2147483653 7] = .ok t ∧
      t.Reachable ∧ t.size = 1 ∧ (t.table_.map List.length).sum = 0 ∧
      ¬ (t.size = (t.table_.map List.length).sum) := by
  have hlf := load_factor_init_of_range (V := Nat) 2147483656 (1 / 2 ^ 40) (id : Nat → Nat)
    (by norm_num) (by norm_num)
  have hI0 := Inv_init (V := Nat) 2147483656 (1 / 2 ^ 40) (id : Nat → Nat) (by norm_num)
  obtain ⟨t, ht, _, _, hsz, _, _, htab, _, _⟩ :=
    insert_grows (HashTable.init 2147483656 (1 / 2 ^ 40) id : HashTable Nat Nat) hI0
      2147483653 7 (-32)
      (by
        show (2 : ℚ) ^ (-32 : ℤ) ≤ 1 / ((2147483656 : ℕ) : ℚ)
        norm_num)
      (by rw [hlf]; norm_num)
  have hrun := run_insert _ t 2147483653 7 ht
  have hs : t.size_ = 1 := by
    rw [hsz, size_stored, chainOf_init]
    rfl
  have hsum : (t.table_.map List.length).sum = 0 := by
    rw [htab, stored_init_eq 2147483656 (1 / 2 ^ 40) id 2147483653 7 2147483653 (by norm_num)
      (by norm_num) (by decide),
      take_flatten_set_replicate_of_lt _ _ _ (by decide),
      sum_length_bucketize _ _ (Nat.mul_pos hI0.cap_pos (by decide))]
    rfl
  refine ⟨t, hrun, ⟨2147483656, 1 / 2 ^ 40, id, [Op.insert 2147483653 7], by norm_num, ?_,
    hrun⟩, hs, hsum, ?_⟩
  · rw [hlf]
    exact roundDouble_tiny
  · simp only [HashTable.size, hs, hsum]
    decide

/-- C15, insert of a new key: on a reachable table, when `find(k)` reports absence and
`insert(k, v)` does not trigger growth, the chain of slot `hasher(k) mod capacity` becomes
the old chain followed by the one node `(k, v)`, every other slot keeps its chain, and the
size grows by exactly 1. -/
theorem insert_new_appends (t : HashTable K V) (hr : t.Reachable) (k : K) (v : V)
    (habsent : t.find k = .ok none)
    (hnogrow : ∃ t1, t.insert k v = .ok t1 ∧ t1.capacity = t.capacity) :
    ∃ t1 old, t.insert k v = .ok t1 ∧
      t.table_[t.hasher_ k % t.capacity]? = some old ∧
      t1.table_[t.hasher_ k % t.capacity]? = some (old ++ [⟨k, v⟩]) ∧
      (∀ i, i ≠ t.hasher_ k % t.capacity → t1.table_[i]? = t.table_[i]?) ∧
      t1.table_.length = t.table_.length ∧
      t1.size = t.size + 1 := by
  have hI := Inv_of_reachable t hr
  obtain ⟨t1, h1, hcap⟩ := hnogrow
  rw [insert_ok t hI k v] at h1
  have h1 := Except.ok.inj h1
  rw [find_ok t hI] at habsent
  have hl := Except.ok.inj habsent
  have hnot : k ∉ (t.chainOf k).map Node.key_ := (lookup_eq_none_iff k _).mp hl
  have hg : (t.stored k v).grown = t.stored k v := by
    apply grown_of_capacity_eq _ (Inv_stored t hI k v).cap_pos
    rw [h1]
    exact hcap
  rw [hg] at h1
  have hj : t.hasher_ k % t.capacity_ < t.table_.length := by
    rw [hI.length_eq]; exact Nat.mod_lt _ hI.cap_pos
  refine ⟨t1, t.chainOf k, ?_, getElem?_chainOf t hI.length_eq hI.cap_pos k, ?_, ?_, ?_, ?_⟩
  · rw [insert_ok t hI k v, hg, h1]
  · rw [← h1]
    simp only [HashTable.stored, HashTable.capacity, put_of_not_mem k v _ hnot]
    rw [List.getElem?_set_self hj]
  · intro i hi
    rw [← h1]
    simp only [HashTable.stored, HashTable.capacity] at hi ⊢
    rw [List.getElem?_set_ne (Ne.symm hi)]
  · rw [← h1]
    simp only [HashTable.stored, List.length_set]
  · rw [← h1]
    simp only [HashTable.size, size_stored, hl, Option.isSome_none, Bool.false_eq_true,
      if_false]

/-- Witness of C15: `oneChain` has capacity 4, load factor 1 and size 3; `insert(13, 130)`
lands in slot 1, behind the three nodes that are there, without growth. -/
theorem insert_new_appends_witness :
    ∃ t1 old, oneChain.insert 13 130 = .ok t1 ∧
      oneChain.table_[oneChain.hasher_ 13 % oneChain.capacity]? = some old ∧
      t1.table_[oneChain.hasher_ 13 % oneChain.capacity]? = some (old ++ [⟨13, 130⟩]) ∧
      (∀ i, i ≠ oneChain.hasher_ 13 % oneChain.capacity →
        t1.table_[i]? = oneChain.table_[i]?) ∧
      t1.table_.length = oneChain.table_.length ∧
      t1.size = oneChain.size + 1 :=
  insert_new_appends oneChain oneChain_reachable 13 130 (by rfl)
    ⟨⟨[[], [⟨1, 10⟩, ⟨5, 50⟩, ⟨9, 90⟩, ⟨13, 130⟩], [], []], id, 1, 4, 4⟩, by
      norm_num [oneChain, HashTable.insert, HashTable.slot, HashTable.growIfNeeded, scan,
        roundDouble_one],
      rfl⟩

/-- C16, at the failing input: `bigTable` has 2^31 + 8 = 2147483656 slots and one node,
2147483653 ↦ 7, in slot 2147483653; it is the table on which `insert(2147483653, 7)`,
called on the empty table of that capacity with load factor 2^-40, calls
`rehash(capacity_ * 2)`.  The call succeeds and leaves 4294967312 empty slots, while the
old chains concatenated and filtered to the keys of new slot 2147483653 are the one node:
the loop of `rehash`, which counts with an `int`, ends before old slot 2147483653, and the
node is in no chain of the result. -/
theorem rehash_drops_high_slots :
    (HashTable.init 2147483656 (1 / 2 ^ 40) id).insert 2147483653 7 =
      bigTable.rehash (bigTable.capacity * 2) ∧
    bigTable.table_.length = bigTable.capacity ∧
    bigTable.table_.flatten = [⟨2147483653, 7⟩] ∧
    bigTable.table_.flatten.filter
      (fun e => decide (bigTable.hasher_ e.key_ % (bigTable.capacity * 2) = 2147483653)) =
        [⟨2147483653, 7⟩] ∧
    ∃ t1, bigTable.rehash (bigTable.capacity * 2) = .ok t1 ∧
      t1.table_[2147483653]? = some [] ∧ t1.table_.flatten = [] ∧
      ¬ t1.table_.flatten.Perm bigTable.table_.flatten := by
  have hI0 := Inv_init (V := Nat) 2147483656 (1 / 2 ^ 40) (id : Nat → Nat) (by norm_num)
  have hst : (HashTable.init 2147483656 (1 / 2 ^ 40) id).stored 2147483653 7 = bigTable :=
    stored_init_eq 2147483656 (1 / 2 ^ 40) id 2147483653 7 2147483653 (by norm_num)
      (by norm_num) (by decide)
  have hfl : bigTable.table_.flatten = [⟨2147483653, 7⟩] :=
    flatten_set_replicate 2147483656 2147483653 (by decide) _
  have hre := rehash_set_replicate bigTable 2147483656 2147483653 [⟨2147483653, 7⟩] rfl rfl
    (by decide) (bigTable.capacity * 2) (by decide)
  refine ⟨?_, ?_, hfl, ?_, _, hre, ?_, ?_, ?_⟩
  · rw [insert_eq _ hI0.length_eq hI0.cap_pos, hst]
    unfold HashTable.growIfNeeded
    rw [if_pos]
    · rfl
    · apply roundDouble_gt_of_two_zpow _ _ (-32)
      · show (2 : ℚ) ^ (-32 : ℤ) ≤ ((1 : ℕ) : ℚ) / ((2147483656 : ℕ) : ℚ)
        norm_num
      · show (1 : ℚ) / 2 ^ 40 < (2 : ℚ) ^ (-32 : ℤ)
        norm_num
  · show ((List.replicate 2147483656 ([] : Chain Nat Nat)).set 2147483653 _).length = 2147483656
    rw [List.length_set, List.length_replicate]
  · rw [hfl]
    decide
  · show (List.replicate (2147483656 * 2) ([] : Chain Nat Nat))[2147483653]? = some []
    rw [List.getElem?_replicate, if_pos (by decide)]
  · show (List.replicate (2147483656 * 2) ([] : Chain Nat Nat)).flatten = []
    exact List.flatten_replicate_nil
  · show ¬ (List.replicate (2147483656 * 2) ([] : Chain Nat Nat)).flatten.Perm _
    rw [List.flatten_replicate_nil, hfl]
    intro h
    have := h.length_eq
    simp at this

/-- C17, at the failing input: the constructor called with capacity 2^31 + 8 = 2147483656,
load factor 2^-40 and the identity as hasher, then `insert(2147483653, 7)`.  The run
succeeds, and on its result `find(2147483653)` reports absence, while the reference map to
which the same call was applied holds 7 under that key: the growth loop, which counts with
an `int`, left the node of slot 2147483653 behind. -/
theorem refinement_lost :
    ∃ t : HashTable Nat Nat,
      (HashTable.init 2147483656 (1 / 2 ^ 40) id).run [Op.insert 2147483653 7] = .ok t ∧
      t.find 2147483653 = .ok none ∧
      (refRun (∅ : RefMap Nat Nat) [Op.insert 2147483653 7]).lookup 2147483653 = some 7 ∧
      ¬ (t.find 2147483653 =
        .ok ((refRun (∅ : RefMap Nat Nat) [Op.insert 2147483653 7]).lookup 2147483653)) := by
  have hlf := load_factor_init_of_range (V := Nat) 2147483656 (1 / 2 ^ 40) (id : Nat → Nat)
    (by norm_num) (by norm_num)
  have hI0 := Inv_init (V := Nat) 2147483656 (1 / 2 ^ 40) (id : Nat → Nat) (by norm_num)
  obtain ⟨t, ht, _, _, _, _, _, _, _, hdrop⟩ :=
    insert_grows (HashTable.init 2147483656 (1 / 2 ^ 40) id : HashTable Nat Nat) hI0
      2147483653 7 (-32)
      (by
        show (2 : ℚ) ^ (-32 : ℤ) ≤ 1 / ((2147483656 : ℕ) : ℚ)
        norm_num)
      (by rw [hlf]; norm_num)
  have hf : t.find 2147483653 = .ok none := hdrop 2147483653 (by decide)
  have hr : (refRun (∅ : RefMap Nat Nat) [Op.insert 2147483653 7]).lookup 2147483653 =
      some 7 := by
    rfl
  refine ⟨t, run_insert _ t 2147483653 7 ht, hf, hr, ?_⟩
  rw [hf, hr]
  intro h
  cases Except.ok.inj h

/-- C18, counterexample: the constructor called with capacity 10, the `double` nearest to
3/10 (the value of the literal `0.3`, which is below 3/10) as load factor and the identity
as hasher; the effective load factor `L` is that double and `L * 10 ≥ 1/2`.  After
`insert(0, 0)`, `insert(1, 1)`, `insert(2, 2)` the table has size 3 and still capacity 10:
the quotient 3/10 rounds to `L`, so the growth test `3.0 / 10 > L` is false, and
`size / capacity ≤ L` does not hold for the exact quotient. -/
theorem exact_bound_exceeded :
    ∃ t : HashTable Nat Nat,
      (HashTable.init 10 threeTenths id : HashTable Nat Nat).load_factor_ = threeTenths ∧
      (1 : ℚ) / 2 ≤ (HashTable.init 10 threeTenths id : HashTable Nat Nat).load_factor_ * 10 ∧
      roundDouble ((3 : ℚ) / 10) = threeTenths ∧ threeTenths < 3 / 10 ∧
      (HashTable.init 10 threeTenths id).run [Op.insert 0 0, Op.insert 1 1, Op.insert 2 2] =
        .ok t ∧
      t.size = 3 ∧ t.capacity = 10 ∧ t.load_factor_ = threeTenths ∧
      ¬ ((t.size : ℚ) / (t.capacity : ℚ) ≤ t.load_factor_) := by
  have hlf := load_factor_init_of_range (V := Nat) 10 threeTenths (id : Nat → Nat)
    (by norm_num [threeTenths]) (by norm_num [threeTenths])
  have hI0 := Inv_init (V := Nat) 10 threeTenths (id : Nat → Nat) (by decide)
  have hfind : ∀ k, (HashTable.init 10 threeTenths id : HashTable Nat Nat).find k = .ok none := by
    intro k
    rw [find_ok _ hI0, chainOf_init]
    rfl
  have hx : roundDouble ((3 : ℚ) / 10) ≤ threeTenths := le_of_eq roundDouble_three_tenths
  obtain ⟨t1, h1, hI1, hs1, hc1, hl1, hf1⟩ :=
    insert_new_no_growth (HashTable.init 10 threeTenths id : HashTable Nat Nat) hI0 0 0 (3 / 10)
      (hfind 0) (by norm_num [HashTable.init]) (by rw [hlf]; exact hx)
  have hs1n : t1.size_ = 1 := hs1
  have hc1n : t1.capacity_ = 10 := hc1
  rw [hlf] at hl1
  obtain ⟨t2, h2, hI2, hs2, hc2, hl2, hf2⟩ :=
    insert_new_no_growth t1 hI1 1 1 (3 / 10)
      (by rw [hf1, if_neg (by decide)]; exact hfind 1)
      (by rw [hs1n, hc1n]; norm_num) (by rw [hl1]; exact hx)
  rw [hs1n] at hs2
  rw [hc1n] at hc2
  rw [hl1] at hl2
  obtain ⟨t3, h3, _, hs3, hc3, hl3, _⟩ :=
    insert_new_no_growth t2 hI2 2 2 (3 / 10)
      (by rw [hf2, if_neg (by decide), hf1, if_neg (by decide)]; exact hfind 2)
      (by rw [hs2, hc2]; norm_num) (by rw [hl2]; exact hx)
  rw [hs2] at hs3
  rw [hc2] at hc3
  rw [hl2] at hl3
  refine ⟨t3, hlf, ?_, roundDouble_three_tenths, ?_, ?_, hs3, hc3, hl3, ?_⟩
  · rw [hlf]
    norm_num [threeTenths]
  · norm_num [threeTenths]
  · simp only [HashTable.run, HashTable.step, h1, h2, h3]
  · simp only [HashTable.size, HashTable.capacity, hs3, hc3, hl3]
    norm_num [threeTenths]

/-- C18, amended: for a table constructed with capacity `c ≥ 1` whose effective load
factor `L` is a `double` and satisfies `L * c ≥ 1/2`, every sequence of `insert` and
`erase` calls runs to its end in a state where the quotient `size / capacity`, rounded to
`double` as the growth test computes it, is at most `L`, although `insert` doubles at most
once per call.  The defaults, capacity 100 and load factor 1/2, qualify. -/
theorem load_factor_bound (c : Nat) (lf : ℚ) (h : K → Nat) (hc : 1 ≤ c)
    (hd : roundDouble (HashTable.init c lf h : HashTable K V).load_factor_ =
      (HashTable.init c lf h : HashTable K V).load_factor_)
    (hL : 1 / 2 ≤ (HashTable.init c lf h : HashTable K V).load_factor_ * (c : ℚ))
    (ops : List (Op K V)) :
    (∃ t, (HashTable.init c lf h).run ops = .ok t ∧
      roundDouble ((t.size : ℚ) / (t.capacity : ℚ)) ≤ t.load_factor_) ∧
    (roundDouble (HashTable.initDefault h : HashTable K V).load_factor_ =
        (HashTable.initDefault h : HashTable K V).load_factor_ ∧
      1 / 2 ≤ (HashTable.initDefault h : HashTable K V).load_factor_ *
        ((HashTable.initDefault h : HashTable K V).capacity : ℚ)) ∧
    (∃ t, (HashTable.initDefault h).run ops = .ok t ∧
      roundDouble ((t.size : ℚ) / (t.capacity : ℚ)) ≤ t.load_factor_) := by
  have hzero : ∀ (c0 : Nat) (f : ℚ),
      roundDouble (((HashTable.init c0 f h : HashTable K V).size_ : ℚ) /
        ((HashTable.init c0 f h : HashTable K V).capacity_ : ℚ)) ≤
        (HashTable.init c0 f h : HashTable K V).load_factor_ := by
    intro c0 f
    have h0 : ((HashTable.init c0 f h : HashTable K V).size_ : ℚ) = 0 := by
      simp [HashTable.init]
    rw [h0, zero_div]
    have hr : roundDouble 0 = 0 := by
      unfold roundDouble
      rw [if_pos (le_refl 0)]
    rw [hr]
    exact le_of_lt (load_factor_init_range (V := V) c0 f h).1
  have hdl : (HashTable.init 100 (1 / 2) h : HashTable K V).load_factor_ = 1 / 2 := by
    norm_num [HashTable.init]
  have hdd : roundDouble (HashTable.init 100 (1 / 2) h : HashTable K V).load_factor_ =
      (HashTable.init 100 (1 / 2) h : HashTable K V).load_factor_ := by
    rw [hdl]
    exact roundDouble_half
  have hdh : (1 : ℚ) / 2 ≤ (HashTable.init 100 (1 / 2) h : HashTable K V).load_factor_ *
      ((HashTable.init 100 (1 / 2) h : HashTable K V).capacity_ : ℚ) := by
    rw [hdl]
    norm_num [HashTable.init]
  refine ⟨?_, ?_, ?_⟩
  · exact bound_run ops _ (Inv_init c lf h hc) hd (hzero c lf) hL
  · rw [initDefault_eq_init]
    exact ⟨hdd, hdh⟩
  · rw [initDefault_eq_init]
    exact bound_run ops _ (Inv_init 100 (1 / 2) h (by decide)) hdd (hzero 100 (1 / 2)) hdh

/-- Witness of C18 (amended): capacity 10 and the `double` nearest to 3/10 as load factor;
three inserts and an erase. -/
theorem load_factor_bound_witness :
    ∃ t, (HashTable.init 10 threeTenths id : HashTable Nat Nat).run
        [Op.insert 0 0, Op.insert 1 1, Op.insert 2 2, Op.erase 1] = .ok t ∧
      roundDouble ((t.size : ℚ) / (t.capacity : ℚ)) ≤ t.load_factor_ :=
  (load_factor_bound 10 threeTenths id (by decide)
    (by
      rw [load_factor_init_of_range 10 threeTenths id (by norm_num [threeTenths])
        (by norm_num [threeTenths])]
      exact roundDouble_threeTenths)
    (by
      rw [load_factor_init_of_range 10 threeTenths id (by norm_num [threeTenths])
        (by norm_num [threeTenths])]
      norm_num [threeTenths])
    [Op.insert 0 0, Op.insert 1 1, Op.insert 2 2, Op.erase 1]).1

/-- C19, safety under positive capacity: every reachable table has capacity at least 1 and
exactly that many slots, so `hasher(key) mod capacity` is computed with a non-zero modulus
and is a valid slot index; `insert`, `find`, `erase` and the growth `rehash(capacity * 2)`
all complete (no division by zero, no slot access out of bounds, no missing previous node),
and so does `insertNode` on every table with at least one slot and as many slots as its
capacity says, which is what `rehash` calls it on.  In both loops that append at a chain
tail the previous node exists whenever the chain is not empty. -/
theorem safety (t : HashTable K V) (hr : t.Reachable) :
    1 ≤ t.capacity ∧ t.table_.length = t.capacity ∧
    (∀ k, t.slot k = .ok (t.hasher_ k % t.capacity) ∧
      t.hasher_ k % t.capacity < t.table_.length) ∧
    (∀ k v, ∃ t1, t.insert k v = .ok t1) ∧
    (∀ k, ∃ r, t.find k = .ok r) ∧
    (∀ k, ∃ t1, t.erase k = .ok t1) ∧
    (∃ t1, t.rehash (t.capacity * 2) = .ok t1) ∧
    (∀ u : HashTable K V, u.table_.length = u.capacity → 1 ≤ u.capacity →
      ∀ e, ∃ u1, u.insertNode e = .ok u1) ∧
    (∀ (k : K) (c : Node K V) (cs : Chain K V), (scan k (c :: cs)).2 = [] →
      ∃ prev, (scan k (c :: cs)).1.getLast? = some prev) ∧
    (∀ (c : Node K V) (cs : Chain K V), ∃ prev, walk none (c :: cs) = some prev) := by
  have hI := Inv_of_reachable t hr
  refine ⟨hI.cap_pos, hI.length_eq, ?_, fun k v => ⟨_, insert_ok t hI k v⟩,
    fun k => ⟨_, find_ok t hI k⟩, fun k => ⟨_, erase_ok t hI k⟩,
    ⟨_, rehash_eq t hI.length_eq _ (by have := hI.cap_pos; simp only [HashTable.capacity]; omega)⟩,
    fun u hlen hcap e => ⟨_, insertNode_eq u hlen hcap e⟩, ?_, fun c cs => walk_some c cs⟩
  · intro k
    refine ⟨slot_eq t hI.cap_pos k, ?_⟩
    rw [hI.length_eq]
    exact Nat.mod_lt _ hI.cap_pos
  · intro k c cs hnil
    have hnot := scan_snd_nil k (c :: cs) hnil
    rw [scan_of_not_mem k (c :: cs) hnot]
    exact ⟨_, List.getLast?_cons⟩

/-- Witness of C19: on `oneChain` the calls `insert(13, 130)`, `find(5)` and `erase(9)`
complete. -/
theorem safety_witness :
    1 ≤ oneChain.capacity ∧ oneChain.table_.length = oneChain.capacity ∧
    (∃ t1, oneChain.insert 13 130 = .ok t1) ∧ (∃ r, oneChain.find 5 = .ok r) ∧
    (∃ t1, oneChain.erase 9 = .ok t1) ∧
    (∃ u1, twoKeys.insertNode ⟨6, 60⟩ = .ok u1) := by
  obtain ⟨h1, h2, _, h4, h5, h6, _, h8, _⟩ := safety oneChain oneChain_reachable
  exact ⟨h1, h2, h4 13 130, h5 5, h6 9, h8 twoKeys rfl (by decide) ⟨6, 60⟩⟩

/-- C20, at the failing input: `bigTable` (capacity 2^31 + 8 = 2147483656, one node
2147483653 ↦ 7 in slot 2147483653) has as many slots as its capacity says and satisfies the
placement invariant, and `rehash(capacity * 2)` succeeds on it; but the node of old slot
2147483653 is neither in new slot 2147483653 nor in new slot 2147483653 + 2147483656, and
new slot 2147483653 is not the old chain of that slot filtered to its keys: the loop of
`rehash`, which counts with an `int`, ends before old slot 2147483653. -/
theorem doubling_drops_high_slots :
    bigTable.table_.length = bigTable.capacity ∧ 1 ≤ bigTable.capacity ∧
    (∀ i chain, bigTable.table_[i]? = some chain →
      ∀ n ∈ chain, bigTable.hasher_ n.key_ % bigTable.capacity = i) ∧
    bigTable.table_[2147483653]? = some [⟨2147483653, 7⟩] ∧
    ∃ t1, bigTable.rehash (bigTable.capacity * 2) = .ok t1 ∧
      (⟨2147483653, 7⟩ : Node Nat Nat) ∉ (t1.table_[2147483653]?).getD [] ∧
      (⟨2147483653, 7⟩ : Node Nat Nat) ∉
        (t1.table_[2147483653 + bigTable.capacity]?).getD [] ∧
      ¬ (t1.table_[2147483653]? =
        some (((bigTable.table_[2147483653 % bigTable.capacity]?).getD []).filter
          (fun e => decide (bigTable.hasher_ e.key_ % (bigTable.capacity * 2) =
            2147483653)))) := by
  have hcap : bigTable.capacity = 2147483656 := rfl
  obtain ⟨t1, hre, htab⟩ := rehash_set_replicate_table bigTable 2147483656 2147483653
    [⟨2147483653, 7⟩] rfl rfl (by decide) (bigTable.capacity * 2) (by decide)
  rw [hcap] at htab
  have hget : bigTable.table_[2147483653]? = some [⟨2147483653, 7⟩] := by
    show ((List.replicate 2147483656 ([] : Chain Nat Nat)).set 2147483653 _)[2147483653]? = _
    rw [List.getElem?_set_self (by rw [List.length_replicate]; decide)]
  have hnew : ∀ j, j < 2147483656 * 2 → t1.table_[j]? = some [] := by
    intro j hj
    rw [htab, List.getElem?_replicate, if_pos hj]
  refine ⟨?_, by decide, ?_, hget, t1, hre, ?_, ?_, ?_⟩
  · show ((List.replicate 2147483656 ([] : Chain Nat Nat)).set 2147483653 _).length = 2147483656
    rw [List.length_set, List.length_replicate]
  · intro i chain hch n hn
    rcases getElem?_set_replicate 2147483656 2147483653 i _ chain hch with ⟨hi, hc⟩ | hc
    · rw [hc, List.mem_singleton] at hn
      rw [hn, hi]
      decide
    · rw [hc] at hn
      cases hn
  · rw [hnew _ (by decide)]
    exact List.not_mem_nil _
  · rw [hcap, hnew _ (by decide)]
    exact List.not_mem_nil _
  · rw [hcap, hnew _ (by decide), show 2147483653 % 2147483656 = 2147483653 from by decide,
      hget]
    decide

end Claims

end HashTableModel
